import Mathlib

/-!
Verification of the timetable-based shortest-path program
(src/shortest_path_times_table.cpp) and of the constant-weight companion
search (lab1/interval_covers.cpp, second translation unit).

Modelling conventions:
- C++ `int` values are modelled as `Nat`; every quantity handled by
  the program on the inputs considered here is non-negative.  `INF` is
  `numeric_limits<int>::max() = 2147483647`.
- Undefined behaviour of the C++ source (modulo by zero, signed-integer
  overflow, out-of-range vector indexing) is modelled by returning
  `none`; a run that returns `some x` is a run that completes without
  undefined behaviour.
- The `std::set<pair<int, Node*>>` priority structure is modelled as a
  duplicate-free list of `(key, node)` pairs from which the
  lexicographically least pair is extracted; node pointers are compared
  by node index.
-/

namespace TimesTable

/-- Sentinel used by both programs: `numeric_limits<int>::max()`. -/
def INF : Nat := 2147483647

/-- Edge of `shortest_path_times_table.cpp`: `connection_node` is the index of
the head node (the C++ code stores a `Node*`), `traverse_time` the fixed
traversal duration, `start_time` the first departure, and `departure_time`
the recurrence period (`0` means one-shot). -/
structure Edge where
  connection_node : Nat
  traverse_time : Nat
  start_time : Nat
  departure_time : Nat
deriving DecidableEq, Repr

/-- Model of `Edge::get_travel_time` (shortest_path_times_table.cpp, lines
44-60).  Returns `none` exactly when the C++ code runs into undefined
behaviour: the modulo `(current_time - start_time) % departure_time` is
executed with `departure_time == 0` (which happens when
`current_time == start_time` and `departure_time == 0`, since the first
guard requires `current_time > start_time`), or the additions
`current_time + traverse_time + wait_time` overflow a signed 32-bit `int`. -/
def get_travel_time (e : Edge) (current_time : Nat) : Option Nat :=
  if e.start_time < current_time ∧ e.departure_time = 0 then
    some INF
  else
    let wait_time : Option Nat :=
      if current_time < e.start_time then
        some (e.start_time - current_time)
      else if e.departure_time = 0 then
        none
      else if (current_time - e.start_time) % e.departure_time = 0 then
        some 0
      else
        some (e.departure_time - (current_time - e.start_time) % e.departure_time)
    match wait_time with
    | none => none
    | some w =>
      if current_time + e.traverse_time ≤ INF ∧
          current_time + e.traverse_time + w ≤ INF then
        some (current_time + e.traverse_time + w)
      else
        none

/-- Reference schedule function, following the specification's words
(spec section 4.1, steps 1-4) for the comparison made by claim C2:
case 1 covers `period == 0` with `current_time > departure_start`;
case 2 covers `current_time <= departure_start`; case 3 is the periodic
wait; case 4 returns `current_time + duration + wait`. -/
def spec_travel_time (departure_start period duration current_time : Nat) : Nat :=
  if period = 0 ∧ departure_start < current_time then
    INF
  else if current_time ≤ departure_start then
    current_time + duration + (departure_start - current_time)
  else if (current_time - departure_start) % period = 0 then
    current_time + duration
  else
    current_time + duration + (period - (current_time - departure_start) % period)

/-- Claim C2 (code_bug evaluation): at `current_time = 5` on the edge
`departure_start = 5, period = 0, duration = 3` the C++ code executes
`(5 - 5) % 0` — a division by zero, undefined behaviour — while the
specification's reference function returns `5 + 3 + 0 = 8`. -/
theorem get_travel_time_spec_divergence :
    get_travel_time ⟨0, 3, 5, 0⟩ 5 = none ∧ spec_travel_time 5 0 3 5 = 8 := by
  constructor <;> decide

/-- Claim C3 (code_bug evaluation): `get_travel_time` is not total.  At
`current_time = 0` on the edge `departure_start = 0, period = 0,
duration = 0` the first guard (`current_time > start_time`) fails, the
`current_time < start_time` branch fails, and the code executes
`(0 - 0) % 0`: a modulo by zero.  In the model this is the `none`
result. -/
theorem get_travel_time_div_by_zero :
    get_travel_time ⟨0, 0, 0, 0⟩ 0 = none := by decide

/-- Whenever the schedule function returns a value (the evaluation is
defined), that value is the sentinel `INF` or at least the current
time. -/
theorem get_travel_time_lb (e : Edge) (current_time r : Nat)
    (h : get_travel_time e current_time = some r) :
    r = INF ∨ current_time ≤ r := by
  unfold get_travel_time at h
  split at h
  · exact Or.inl (Option.some.inj h).symm
  · dsimp only at h
    split at h
    · exact Option.noConfusion h
    · split at h
      · exact Or.inr (by have := Option.some.inj h; omega)
      · exact Option.noConfusion h

/-- Claim C4: whenever `Edge::get_travel_time` returns a value (i.e. the
evaluation is defined), that value is the sentinel `INF` or is at least
`current_time`: the derived edge cost is non-negative. -/
theorem get_travel_time_ge_current (e : Edge) (current_time r : Nat)
    (h : get_travel_time e current_time = some r) :
    r = INF ∨ current_time ≤ r :=
  get_travel_time_lb e current_time r h

/-- Witness for claim C4 at the concrete input `current_time = 4`,
edge `(departure_start = 0, period = 3, duration = 2)`: the code waits
2 time units for the departure at time 6 and arrives at `6 + 2 = 8`. -/
theorem get_travel_time_ge_current_witness :
    get_travel_time ⟨0, 2, 0, 3⟩ 4 = some 8 ∧ (8 = INF ∨ 4 ≤ 8) :=
  ⟨by decide, get_travel_time_ge_current ⟨0, 2, 0, 3⟩ 4 8 (by decide)⟩

/-- Every defined result of the schedule function fits in an `int`:
it is at most the sentinel `INF`. -/
theorem get_travel_time_le_INF (e : Edge) (t r : Nat)
    (h : get_travel_time e t = some r) : r ≤ INF := by
  unfold get_travel_time at h
  split at h
  · have := Option.some.inj h
    omega
  · dsimp only at h
    split at h
    · exact Option.noConfusion h
    · split at h
      · have := Option.some.inj h
        omega
      · exact Option.noConfusion h

/-- On representable current times, a defined result of the schedule
function is never below the current time. -/
theorem get_travel_time_ge (e : Edge) {t r : Nat} (ht : t ≤ INF)
    (h : get_travel_time e t = some r) : t ≤ r := by
  rcases get_travel_time_lb e t r h with h' | h'
  · omega
  · exact h'

/-- The departure waited for by the periodic branch of the schedule
function is the least time that is at least `t`, at least `st`, and lies
on the arithmetic progression `st + k * dt`. -/
theorem nextDep_least (st dt t w : Nat) (hdt : 0 < dt)
    (hw : w = if t < st then st - t
      else if (t - st) % dt = 0 then 0 else dt - (t - st) % dt) :
    st ≤ t + w ∧ (t + w - st) % dt = 0 ∧
      ∀ D, t ≤ D → st ≤ D → (D - st) % dt = 0 → t + w ≤ D := by
  subst hw
  split_ifs with h1 h2
  · refine ⟨by omega, ?_, fun D _ h2 _ => by omega⟩
    have he : t + (st - t) - st = 0 := by omega
    rw [he]
    exact Nat.zero_mod dt
  · refine ⟨by omega, ?_, fun D hD _ _ => by omega⟩
    have he : t + 0 - st = t - st := by omega
    rw [he, h2]
  · have hphase_lt : (t - st) % dt < dt := Nat.mod_lt _ hdt
    have hphase_le : (t - st) % dt ≤ t - st := Nat.mod_le _ _
    have hq : dt * ((t - st) / dt) + (t - st) % dt = t - st := Nat.div_add_mod _ _
    refine ⟨by omega, ?_, ?_⟩
    · have he : t + (dt - (t - st) % dt) - st = dt * ((t - st) / dt) + dt := by omega
      rw [he]
      have he2 : dt * ((t - st) / dt) + dt = dt * ((t - st) / dt + 1) := by ring
      rw [he2]
      exact Nat.mul_mod_right _ _
    · intro D hDt hDst hDmod
      have hqD : dt * ((D - st) / dt) + (D - st) % dt = D - st := Nat.div_add_mod _ _
      rw [hDmod] at hqD
      have hmul_lt : dt * ((t - st) / dt) < dt * ((D - st) / dt) := by omega
      have hdiv_lt : (t - st) / dt < (D - st) / dt :=
        Nat.lt_of_mul_lt_mul_left hmul_lt
      have hstep : dt * ((t - st) / dt + 1) ≤ dt * ((D - st) / dt) :=
        Nat.mul_le_mul_left dt hdiv_lt
      have he2 : dt * ((t - st) / dt + 1) = dt * ((t - st) / dt) + dt := by ring
      omega

/-- In the periodic case the defined result of the schedule function is
`t + traverse_time + wait` with the wait given by the code's formula. -/
theorem get_travel_time_periodic (e : Edge) (t r : Nat)
    (hdt : e.departure_time ≠ 0) (h : get_travel_time e t = some r) :
    ∃ w, (w = if t < e.start_time then e.start_time - t
        else if (t - e.start_time) % e.departure_time = 0 then 0
        else e.departure_time - (t - e.start_time) % e.departure_time) ∧
      r = t + e.traverse_time + w := by
  unfold get_travel_time at h
  split at h
  · rename_i hg
    exact absurd hg.2 hdt
  · dsimp only at h
    split at h
    · exact Option.noConfusion h
    · rename_i w hw
      split at h
      · refine ⟨w, ?_, (Option.some.inj h).symm⟩
        split_ifs at hw with h1 h2
        · rw [if_pos h1]
          exact (Option.some.inj hw).symm
        · rw [if_neg h1, if_pos h2]
          exact (Option.some.inj hw).symm
        · rw [if_neg h1, if_neg h2]
          exact (Option.some.inj hw).symm
      · exact Option.noConfusion h

/-- Monotonicity of the schedule function: leaving the tail earlier never
yields a later (defined) arrival at the head. -/
theorem get_travel_time_mono (e : Edge) {t₁ t₂ r₁ r₂ : Nat} (h12 : t₁ ≤ t₂)
    (h₁ : get_travel_time e t₁ = some r₁)
    (h₂ : get_travel_time e t₂ = some r₂) : r₁ ≤ r₂ := by
  have hle1 : r₁ ≤ INF := get_travel_time_le_INF e t₁ r₁ h₁
  by_cases hdt : e.departure_time = 0
  · -- one-shot edge
    rcases Nat.lt_or_ge e.start_time t₂ with hst2 | hst2
    · -- the first guard fires for t₂, so r₂ = INF
      have : get_travel_time e t₂ = some INF := by
        unfold get_travel_time
        rw [if_pos ⟨hst2, hdt⟩]
      rw [h₂] at this
      have := Option.some.inj this
      omega
    · -- t₁ ≤ t₂ ≤ st; defined one-shot results are st + traverse_time
      have key : ∀ t r, t ≤ e.start_time → get_travel_time e t = some r →
          r = e.start_time + e.traverse_time := by
        intro t r hts h
        unfold get_travel_time at h
        split at h
        · rename_i hg
          omega
        · dsimp only at h
          split at h
          · exact Option.noConfusion h
          · rename_i w hw
            split at h
            · have hr := Option.some.inj h
              split_ifs at hw with h1
              have := Option.some.inj hw
              omega
            · exact Option.noConfusion h
      rw [key t₁ r₁ (by omega) h₁, key t₂ r₂ hst2 h₂]
  · -- periodic edge
    obtain ⟨w₁, hw₁, hr₁⟩ := get_travel_time_periodic e t₁ r₁ hdt h₁
    obtain ⟨w₂, hw₂, hr₂⟩ := get_travel_time_periodic e t₂ r₂ hdt h₂
    have hpos : 0 < e.departure_time := Nat.pos_of_ne_zero hdt
    have hspec₁ := nextDep_least e.start_time e.departure_time t₁ w₁ hpos hw₁
    have hspec₂ := nextDep_least e.start_time e.departure_time t₂ w₂ hpos hw₂
    have hD : t₁ + w₁ ≤ t₂ + w₂ :=
      hspec₁.2.2 (t₂ + w₂) (by omega) hspec₂.1 hspec₂.2.1
    omega

/-- Per-node mutable state of the C++ `Node` class: `value` (best known
arrival time), `visited`, and `prev_node` (the predecessor link, with
`none` modelling the null pointer). -/
structure NodeState where
  value : Nat
  visited : Bool
  prev_node : Option Nat
deriving DecidableEq, Repr

/-- Default record handed to `List.getD`; valid runs never read out of
range (the loop turns out-of-range node access into `none` instead). -/
def dflt : NodeState := ⟨0, false, none⟩

/-- Graph of `shortest_path_times_table.cpp` in arena form: entry `u`
lists the outgoing edges of node `u` in insertion order
(`add_one_way_edge` appends to the tail node's edge list). -/
structure Graph where
  edges : List (List Edge)

/-- Number of nodes of the graph (indices are dense `0..N-1`). -/
def Graph.numNodes (g : Graph) : Nat := g.edges.length

/-- Outgoing edges of node `u`. -/
def Graph.edgesOf (g : Graph) (u : Nat) : List Edge := g.edges.getD u []

/-- Node states produced by the `Graph` constructor and by
`Graph::graph_reset` with init value `INF`: every node unvisited, with
the sentinel value and a null predecessor. -/
def graph_reset (n : Nat) : List NodeState := List.replicate n ⟨INF, false, none⟩

/-- Model of `std::set` insertion for the priority structure: inserting
an already-present `(key, node)` pair is a no-op. -/
def queueInsert (p : Nat × Nat) (q : List (Nat × Nat)) : List (Nat × Nat) :=
  if p ∈ q then q else p :: q

/-- Least element of the priority structure under the `std::set` order
on `pair<int, Node*>`: lexicographic on the key, node pointers compared
by node index. -/
def findMin : List (Nat × Nat) → Option (Nat × Nat)
  | [] => none
  | p :: rest =>
    match findMin rest with
    | none => some p
    | some m => if p.1 < m.1 ∨ (p.1 = m.1 ∧ p.2 ≤ m.2) then some p else some m

theorem findMin_eq_none : ∀ {q : List (Nat × Nat)}, findMin q = none → q = [] := by
  intro q h
  cases q with
  | nil => rfl
  | cons p rest =>
    exfalso
    rcases h2 : findMin rest with _ | z
    · simp only [findMin, h2] at h
      exact Option.noConfusion h
    · simp only [findMin, h2] at h
      split at h <;> exact Option.noConfusion h

theorem findMin_spec : ∀ {q : List (Nat × Nat)} {m : Nat × Nat},
    findMin q = some m →
    m ∈ q ∧ ∀ p ∈ q, m.1 < p.1 ∨ (m.1 = p.1 ∧ m.2 ≤ p.2) := by
  intro q
  induction q with
  | nil => intro m h; exact Option.noConfusion h
  | cons x rest ih =>
    intro m h
    rcases hm : findMin rest with _ | m'
    · have hrest : rest = [] := findMin_eq_none hm
      subst hrest
      have hx : x = m := by
        simp only [findMin] at h
        exact Option.some.inj h
      subst hx
      refine ⟨List.mem_cons_self _ _, ?_⟩
      intro p hp
      rcases List.mem_singleton.mp hp with rfl
      omega
    · obtain ⟨hmem', hle'⟩ := ih hm
      simp only [findMin, hm] at h
      by_cases hcmp : x.1 < m'.1 ∨ (x.1 = m'.1 ∧ x.2 ≤ m'.2)
      · rw [if_pos hcmp] at h
        obtain rfl : x = m := Option.some.inj h
        refine ⟨List.mem_cons_self _ _, ?_⟩
        intro p hp
        rcases List.mem_cons.mp hp with rfl | hp'
        · omega
        · have := hle' p hp'
          omega
      · rw [if_neg hcmp] at h
        obtain rfl : m' = m := Option.some.inj h
        refine ⟨List.mem_cons_of_mem _ hmem', ?_⟩
        intro p hp
        rcases List.mem_cons.mp hp with rfl | hp'
        · omega
        · exact hle' p hp'

theorem findMin_mem {q : List (Nat × Nat)} {m : Nat × Nat}
    (h : findMin q = some m) : m ∈ q :=
  (findMin_spec h).1

theorem findMin_le {q : List (Nat × Nat)} {m : Nat × Nat}
    (h : findMin q = some m) :
    ∀ p ∈ q, m.1 < p.1 ∨ (m.1 = p.1 ∧ m.2 ≤ p.2) :=
  (findMin_spec h).2

/-- Model of the edge loop of `dijkstra_timetable` (lines 277-295):
relax the outgoing edges of the just-finalized node `curr` in order.
`none` models undefined behaviour: an edge head out of range (invalid
`Node*` dereference) or the schedule function hitting UB. -/
def relaxEdges (curr : Nat) : List Edge → List NodeState → List (Nat × Nat) →
    Option (List NodeState × List (Nat × Nat))
  | [], ns, q => some (ns, q)
  | e :: rest, ns, q =>
    if e.connection_node < ns.length then
      if (ns.getD e.connection_node dflt).visited then
        relaxEdges curr rest ns q
      else
        match get_travel_time e ((ns.getD curr dflt).value) with
        | none => none
        | some upd_time =>
          if upd_time < (ns.getD e.connection_node dflt).value then
            relaxEdges curr rest
              (ns.set e.connection_node
                { ns.getD e.connection_node dflt with
                    value := upd_time, prev_node := some curr })
              (queueInsert (upd_time, e.connection_node) q)
          else
            relaxEdges curr rest ns q
    else none

/-- Number of not-yet-visited nodes; the primary termination measure. -/
def unvisCount (ns : List NodeState) : Nat :=
  (ns.filter (fun x => !x.visited)).length

theorem getD_set_self (l : List NodeState) (i : Nat) (a : NodeState)
    (h : i < l.length) : (l.set i a).getD i dflt = a := by
  rw [List.getD_eq_getElem?_getD, List.getElem?_set_eq_of_lt a h]
  rfl

theorem getD_set_ne (l : List NodeState) {i j : Nat} (a : NodeState)
    (h : i ≠ j) : (l.set i a).getD j dflt = l.getD j dflt := by
  rw [List.getD_eq_getElem?_getD, List.getElem?_set_ne h,
    ← List.getD_eq_getElem?_getD]

theorem unvisCount_congr : ∀ {ns ns' : List NodeState},
    ns.length = ns'.length →
    (∀ v, (ns.getD v dflt).visited = (ns'.getD v dflt).visited) →
    unvisCount ns = unvisCount ns' := by
  intro ns
  induction ns with
  | nil =>
    intro ns' hlen _
    cases ns' with
    | nil => rfl
    | cons b l' => exact absurd hlen (by simp)
  | cons a l ih =>
    intro ns' hlen hvis
    cases ns' with
    | nil => exact absurd hlen (by simp)
    | cons b l' =>
      have h0 : a.visited = b.visited := hvis 0
      have htail : unvisCount l = unvisCount l' := by
        refine ih (by simpa using hlen) ?_
        intro v
        exact hvis (v + 1)
      simp only [unvisCount, List.filter_cons, h0]
      by_cases hb : b.visited
      · simp only [hb, Bool.not_true]
        simpa [unvisCount] using htail
      · simp only [Bool.not_eq_true] at hb
        simp only [hb, Bool.not_false]
        simpa [unvisCount] using htail

theorem unvisCount_set_visited : ∀ {ns : List NodeState} {u : Nat},
    u < ns.length → (ns.getD u dflt).visited = false →
    unvisCount (ns.set u { ns.getD u dflt with visited := true }) <
      unvisCount ns := by
  intro ns
  induction ns with
  | nil => intro u hu _; exact absurd hu (by simp)
  | cons a l ih =>
    intro u hu hnv
    cases u with
    | zero =>
      have ha : a.visited = false := hnv
      simp only [List.set, unvisCount, List.filter_cons, ha, List.getD]
      simp [ha, Nat.lt_succ_of_le]
    | succ v =>
      have hv : v < l.length := by simpa using hu
      have hnv' : (l.getD v dflt).visited = false := hnv
      have hlt := ih hv hnv'
      have hgd : (a :: l).getD (v + 1) dflt = l.getD v dflt := rfl
      simp only [List.set, unvisCount, List.filter_cons, hgd]
      by_cases hav : a.visited
      · simpa [hav, unvisCount] using hlt
      · simp only [Bool.not_eq_true] at hav
        simp only [hav, Bool.not_false]
        simpa [unvisCount] using hlt

theorem relaxEdges_vis_len (curr : Nat) : ∀ (es : List Edge)
    (ns : List NodeState) (q : List (Nat × Nat))
    {ns' : List NodeState} {q' : List (Nat × Nat)},
    relaxEdges curr es ns q = some (ns', q') →
    ns'.length = ns.length ∧
      ∀ v, (ns'.getD v dflt).visited = (ns.getD v dflt).visited := by
  intro es
  induction es with
  | nil =>
    intro ns q ns' q' h
    obtain ⟨rfl, rfl⟩ : ns = ns' ∧ q = q' := by
      have := Option.some.inj h
      exact ⟨congrArg Prod.fst this, congrArg Prod.snd this⟩
    exact ⟨rfl, fun _ => rfl⟩
  | cons e rest ih =>
    intro ns q ns' q' h
    unfold relaxEdges at h
    split at h
    · rename_i hlt
      split at h
      · exact ih ns q h
      · rename_i hnv
        split at h
        · exact Option.noConfusion h
        · rename_i upd hupd
          split at h
          · have hrec := ih _ _ h
            rw [List.length_set] at hrec
            refine ⟨hrec.1, fun v => ?_⟩
            rw [hrec.2 v]
            by_cases hv : e.connection_node = v
            · subst hv
              rw [getD_set_self _ _ _ hlt]
            · rw [getD_set_ne _ _ hv]
          · exact ih ns q h
    · exact Option.noConfusion h

/-- Model of the main loop of `dijkstra_timetable` (lines 263-296):
extract the least `(cost, node)` pair, discard it when the node is
already visited (stale duplicate), otherwise mark the node visited and
relax its outgoing edges.  An out-of-range node index in the queue is
undefined behaviour (`none`); the only queue entry not produced by a
relaxation is the valid start node. -/
def dijkstraLoop (g : Graph) (ns : List NodeState) (q : List (Nat × Nat)) :
    Option (List NodeState) :=
  match hm : findMin q with
  | none => some ns
  | some (t, u) =>
    if hu : u < ns.length then
      if hv : (ns.getD u dflt).visited then
        dijkstraLoop g ns (q.erase (t, u))
      else
        match hr : relaxEdges u (g.edgesOf u)
            (ns.set u { ns.getD u dflt with visited := true })
            (q.erase (t, u)) with
        | none => none
        | some (ns2, q2) => dijkstraLoop g ns2 q2
    else none
termination_by (unvisCount ns, q.length)
decreasing_by
  · apply Prod.Lex.right
    have hmem : (t, u) ∈ q := findMin_mem hm
    have := List.length_erase_of_mem hmem
    have hpos : 0 < q.length := List.length_pos.mpr (by
      intro hq
      subst hq
      exact absurd hmem (List.not_mem_nil _))
    omega
  · apply Prod.Lex.left
    have hmark := unvisCount_set_visited hu (by simpa using hv)
    have hrel := relaxEdges_vis_len u _ _ _ hr
    have : unvisCount ns2 =
        unvisCount (ns.set u { ns.getD u dflt with visited := true }) :=
      unvisCount_congr hrel.1 hrel.2
    omega

/-- Model of `dijkstra_timetable` (lines 252-297): reset every node to
the sentinel state, set the start node's value to 0, seed the priority
structure with `(0, start)` and run the main loop.  An out-of-range
start index dereferences an invalid node: undefined behaviour. -/
def dijkstra_timetable (g : Graph) (s : Nat) : Option (List NodeState) :=
  if s < g.numNodes then
    dijkstraLoop g
      ((graph_reset g.numNodes).set s
        { (graph_reset g.numNodes).getD s dflt with value := 0 })
      (queueInsert (0, s) [])
  else none

/-- Arrival times realizable by paths: `Reach g s v t` holds when some
path from `s` to `v` realizes arrival time `t` as the cumulative
application of the schedule function along its edges, in order,
starting from time 0 at `s`. -/
inductive Reach (g : Graph) (s : Nat) : Nat → Nat → Prop
  | refl : Reach g s s 0
  | step {u t t' : Nat} {e : Edge} : Reach g s u t → e ∈ g.edgesOf u →
      get_travel_time e t = some t' → Reach g s e.connection_node t'

theorem Reach.le_INF {g : Graph} {s v t : Nat} (h : Reach g s v t) :
    t ≤ INF := by
  induction h with
  | refl => exact Nat.zero_le _
  | step _ _ htr _ => exact get_travel_time_le_INF _ _ _ htr

theorem queueInsert_mem_self (p : Nat × Nat) (q : List (Nat × Nat)) :
    p ∈ queueInsert p q := by
  unfold queueInsert
  split
  · assumption
  · exact List.mem_cons_self _ _

theorem queueInsert_subset (p : Nat × Nat) (q : List (Nat × Nat)) :
    ∀ x ∈ q, x ∈ queueInsert p q := by
  intro x hx
  unfold queueInsert
  split
  · exact hx
  · exact List.mem_cons_of_mem _ hx

theorem mem_queueInsert {p x : Nat × Nat} {q : List (Nat × Nat)}
    (h : x ∈ queueInsert p q) : x = p ∨ x ∈ q := by
  unfold queueInsert at h
  split at h
  · exact Or.inr h
  · exact List.mem_cons.mp h

/-- Instrumented variant of the main loop that additionally records, in
order, the `(node, value)` pairs at the moments nodes are marked
visited (finalized).  This is the same loop as `dijkstraLoop` with a
ghost trace accumulator. -/
def dijkstraLoopTrace (g : Graph) (ns : List NodeState)
    (q : List (Nat × Nat)) (tr : List (Nat × Nat)) :
    Option (List NodeState × List (Nat × Nat)) :=
  match hm : findMin q with
  | none => some (ns, tr)
  | some (t, u) =>
    if hu : u < ns.length then
      if hv : (ns.getD u dflt).visited then
        dijkstraLoopTrace g ns (q.erase (t, u)) tr
      else
        match hr : relaxEdges u (g.edgesOf u)
            (ns.set u { ns.getD u dflt with visited := true })
            (q.erase (t, u)) with
        | none => none
        | some (ns2, q2) =>
            dijkstraLoopTrace g ns2 q2 (tr ++ [(u, (ns.getD u dflt).value)])
    else none
termination_by (unvisCount ns, q.length)
decreasing_by
  · apply Prod.Lex.right
    have hmem : (t, u) ∈ q := findMin_mem hm
    have := List.length_erase_of_mem hmem
    have hpos : 0 < q.length := List.length_pos.mpr (by
      intro hq
      subst hq
      exact absurd hmem (List.not_mem_nil _))
    omega
  · apply Prod.Lex.left
    have hmark := unvisCount_set_visited hu (by simpa using hv)
    have hrel := relaxEdges_vis_len u _ _ _ hr
    have : unvisCount ns2 =
        unvisCount (ns.set u { ns.getD u dflt with visited := true }) :=
      unvisCount_congr hrel.1 hrel.2
    omega

/-- The instrumented loop is the main loop plus a ghost trace: its first
component agrees with `dijkstraLoop` for every accumulator. -/
theorem dijkstraLoopTrace_fst (g : Graph) : ∀ (ns : List NodeState)
    (q : List (Nat × Nat)) (tr : List (Nat × Nat)),
    (dijkstraLoopTrace g ns q tr).map Prod.fst = dijkstraLoop g ns q := by
  intro ns q
  induction ns, q using dijkstraLoop.induct g with
  | case1 ns q hm =>
    intro tr
    unfold dijkstraLoopTrace dijkstraLoop
    rw [hm]
    rfl
  | case2 ns q t u hm hu hv ih =>
    intro tr
    unfold dijkstraLoopTrace dijkstraLoop
    rw [hm]
    simp only [hu, hv, dif_pos, if_pos]
    exact ih tr
  | case3 ns q t u hm hu hv hr =>
    intro tr
    unfold dijkstraLoopTrace dijkstraLoop
    rw [hm]
    simp only [hu, hv, dif_pos, if_neg]
    rw [hr]
    rfl
  | case4 ns q t u hm hu hv ns2 q2 hr ih =>
    intro tr
    unfold dijkstraLoopTrace dijkstraLoop
    rw [hm]
    simp only [hu, hv, dif_pos, if_neg]
    rw [hr]
    exact ih _
  | case5 ns q t u hm hu =>
    intro tr
    unfold dijkstraLoopTrace dijkstraLoop
    rw [hm]
    simp only [hu]
    rfl

/-- Instrumented variant of `dijkstra_timetable`, starting from the
empty trace. -/
def dijkstra_timetableTrace (g : Graph) (s : Nat) :
    Option (List NodeState × List (Nat × Nat)) :=
  if s < g.numNodes then
    dijkstraLoopTrace g
      ((graph_reset g.numNodes).set s
        { (graph_reset g.numNodes).getD s dflt with value := 0 })
      (queueInsert (0, s) []) []
  else none

theorem dijkstra_timetableTrace_fst (g : Graph) (s : Nat) :
    (dijkstra_timetableTrace g s).map Prod.fst = dijkstra_timetable g s := by
  unfold dijkstra_timetableTrace dijkstra_timetable
  split
  · exact dijkstraLoopTrace_fst g _ _ []
  · rfl

/-- Postcondition of the relaxation loop, relative to its entry state:
`curr` is the just-finalized node, `es` the suffix of its edge list that
was processed, `(ns, q)` the entry state and `(ns', q')` the exit
state. -/
structure RelaxPost (curr : Nat) (es : List Edge) (ns : List NodeState)
    (q : List (Nat × Nat)) (ns' : List NodeState)
    (q' : List (Nat × Nat)) : Prop where
  len : ns'.length = ns.length
  vis_eq : ∀ v, (ns'.getD v dflt).visited = (ns.getD v dflt).visited
  frozen : ∀ v, (ns.getD v dflt).visited = true →
    ns'.getD v dflt = ns.getD v dflt
  val_mono : ∀ v, (ns'.getD v dflt).value ≤ (ns.getD v dflt).value
  qsub : ∀ p ∈ q, p ∈ q'
  qnew : ∀ p ∈ q', p ∈ q ∨ (p.2 < ns.length ∧
    (ns.getD p.2 dflt).visited = false ∧
    p.1 < (ns.getD p.2 dflt).value ∧
    ∃ e ∈ es, e.connection_node = p.2 ∧
      get_travel_time e ((ns.getD curr dflt).value) = some p.1)
  touched : ∀ v, ns'.getD v dflt = ns.getD v dflt ∨
    ((ns'.getD v dflt).prev_node = some curr ∧
      (ns'.getD v dflt).value < (ns.getD v dflt).value ∧
      (ns.getD v dflt).visited = false ∧ v < ns.length ∧
      ∃ e ∈ es, e.connection_node = v ∧
        get_travel_time e ((ns.getD curr dflt).value) =
          some ((ns'.getD v dflt).value))
  closure : ∀ e ∈ es, e.connection_node < ns.length ∧
    ((ns.getD e.connection_node dflt).visited = true ∨
      ∃ r, get_travel_time e ((ns.getD curr dflt).value) = some r ∧
        (ns'.getD e.connection_node dflt).value ≤ r)
  qval : (∀ p ∈ q, (ns.getD p.2 dflt).value ≤ p.1) →
    ∀ p ∈ q', (ns'.getD p.2 dflt).value ≤ p.1
  inq : (∀ v, v < ns.length → (ns.getD v dflt).visited = false →
      (ns.getD v dflt).value ≠ INF → ((ns.getD v dflt).value, v) ∈ q) →
    ∀ v, v < ns.length → (ns'.getD v dflt).visited = false →
      (ns'.getD v dflt).value ≠ INF → ((ns'.getD v dflt).value, v) ∈ q'

theorem relaxEdges_spec (curr : Nat) : ∀ (es : List Edge)
    (ns : List NodeState) (q : List (Nat × Nat)) {ns' : List NodeState}
    {q' : List (Nat × Nat)},
    (ns.getD curr dflt).visited = true →
    relaxEdges curr es ns q = some (ns', q') →
    RelaxPost curr es ns q ns' q' := by
  intro es
  induction es with
  | nil =>
    intro ns q ns' q' _ h
    obtain ⟨rfl, rfl⟩ : ns = ns' ∧ q = q' := by
      have := Option.some.inj h
      exact ⟨congrArg Prod.fst this, congrArg Prod.snd this⟩
    exact {
      len := rfl
      vis_eq := fun _ => rfl
      frozen := fun _ _ => rfl
      val_mono := fun _ => Nat.le_refl _
      qsub := fun _ hp => hp
      qnew := fun _ hp => Or.inl hp
      touched := fun _ => Or.inl rfl
      closure := fun _ he => absurd he (List.not_mem_nil _)
      qval := fun hq => hq
      inq := fun hq => hq }
  | cons e rest ih =>
    intro ns q ns' q' hvisu h
    unfold relaxEdges at h
    split at h
    · rename_i hlt
      split at h
      · -- the head of this edge is already visited: skipped
        rename_i hvisnb
        have post := ih ns q hvisu h
        exact {
          len := post.len
          vis_eq := post.vis_eq
          frozen := post.frozen
          val_mono := post.val_mono
          qsub := post.qsub
          qnew := fun p hp => by
            rcases post.qnew p hp with hin | ⟨h1, h2, h3, e', he', h4⟩
            · exact Or.inl hin
            · exact Or.inr ⟨h1, h2, h3, e', List.mem_cons_of_mem _ he', h4⟩
          touched := fun v => by
            rcases post.touched v with hsame | ⟨h1, h2, h3, h4, e', he', h5⟩
            · exact Or.inl hsame
            · exact Or.inr ⟨h1, h2, h3, h4, e', List.mem_cons_of_mem _ he', h5⟩
          closure := fun e' he' => by
            rcases List.mem_cons.mp he' with rfl | hmem
            · exact ⟨hlt, Or.inl hvisnb⟩
            · exact post.closure e' hmem
          qval := post.qval
          inq := post.inq }
      · rename_i hnvis
        split at h
        · exact Option.noConfusion h
        · rename_i upd hupd
          have hnvis' : (ns.getD e.connection_node dflt).visited = false := by
            simpa using hnvis
          split at h
          · -- improving relaxation: value, predecessor and queue updated
            rename_i hless
            have hne_curr : e.connection_node ≠ curr := by
              intro hc
              rw [hc, hvisu] at hnvis'
              exact Bool.noConfusion hnvis'
            have hset_nb : ((ns.set e.connection_node
                { ns.getD e.connection_node dflt with
                    value := upd, prev_node := some curr }).getD
                  e.connection_node dflt) =
                { ns.getD e.connection_node dflt with
                    value := upd, prev_node := some curr } :=
              getD_set_self _ _ _ hlt
            have hset_ne : ∀ v, e.connection_node ≠ v →
                ((ns.set e.connection_node
                  { ns.getD e.connection_node dflt with
                      value := upd, prev_node := some curr }).getD v dflt) =
                ns.getD v dflt := fun v hv => getD_set_ne _ _ hv
            have hcurr_same : ((ns.set e.connection_node
                { ns.getD e.connection_node dflt with
                    value := upd, prev_node := some curr }).getD curr dflt) =
                ns.getD curr dflt := hset_ne curr hne_curr
            have post := ih _ _ (by rw [hcurr_same]; exact hvisu) h
            have hlen_set : (ns.set e.connection_node
                { ns.getD e.connection_node dflt with
                    value := upd, prev_node := some curr }).length =
                ns.length := List.length_set ..
            -- per-node comparison between the set state and the entry state
            have hval_set : ∀ v, ((ns.set e.connection_node
                { ns.getD e.connection_node dflt with
                    value := upd, prev_node := some curr }).getD v dflt).value ≤
                (ns.getD v dflt).value := by
              intro v
              by_cases hv : e.connection_node = v
              · subst hv
                rw [hset_nb]
                exact Nat.le_of_lt hless
              · rw [hset_ne v hv]
            have hvis_set : ∀ v, ((ns.set e.connection_node
                { ns.getD e.connection_node dflt with
                    value := upd, prev_node := some curr }).getD v dflt).visited =
                (ns.getD v dflt).visited := by
              intro v
              by_cases hv : e.connection_node = v
              · subst hv
                rw [hset_nb]
              · rw [hset_ne v hv]
            have htcur : ((ns.set e.connection_node
                { ns.getD e.connection_node dflt with
                    value := upd, prev_node := some curr }).getD curr dflt).value =
                (ns.getD curr dflt).value := by rw [hcurr_same]
            refine {
              len := by rw [post.len, hlen_set]
              vis_eq := fun v => by rw [post.vis_eq v, hvis_set v]
              frozen := ?_
              val_mono := fun v => Nat.le_trans (post.val_mono v) (hval_set v)
              qsub := fun p hp => post.qsub p (queueInsert_subset _ _ p hp)
              qnew := ?_
              touched := ?_
              closure := ?_
              qval := ?_
              inq := ?_ }
            · -- frozen
              intro v hv
              have hvne : e.connection_node ≠ v := by
                intro hc
                rw [hc, hv] at hnvis'
                exact Bool.noConfusion hnvis'
              rw [post.frozen v (by rw [hset_ne v hvne]; exact hv), hset_ne v hvne]
            · -- qnew
              intro p hp
              rcases post.qnew p hp with hin | ⟨h1, h2, h3, e', he', h4⟩
              · rcases mem_queueInsert hin with rfl | hq
                · refine Or.inr ⟨hlt, hnvis', hless, e, List.mem_cons_self _ _,
                    rfl, hupd⟩
                · exact Or.inl hq
              · refine Or.inr ⟨by rwa [hlen_set] at h1, ?_, ?_, e',
                  List.mem_cons_of_mem _ he', h4.1, by rw [← htcur]; exact h4.2⟩
                · rw [← hvis_set p.2]; exact h2
                · exact Nat.lt_of_lt_of_le h3 (hval_set p.2)
            · -- touched
              intro v
              rcases post.touched v with hsame | ⟨h1, h2, h3, h4, e', he', h5⟩
              · by_cases hv : e.connection_node = v
                · subst hv
                  rw [hsame, hset_nb]
                  exact Or.inr ⟨rfl, hless, hnvis', hlt, e,
                    List.mem_cons_self _ _, rfl, hupd⟩
                · rw [hsame, hset_ne v hv]
                  exact Or.inl rfl
              · refine Or.inr ⟨h1, Nat.lt_of_lt_of_le h2 (hval_set v),
                  by rw [← hvis_set v]; exact h3, by rwa [hlen_set] at h4,
                  e', List.mem_cons_of_mem _ he', h5.1,
                  by rw [← htcur]; exact h5.2⟩
            · -- closure
              intro e' he'
              rcases List.mem_cons.mp he' with rfl | hmem
              · refine ⟨hlt, Or.inr ⟨upd, hupd, ?_⟩⟩
                have := post.val_mono e'.connection_node
                rw [hset_nb] at this
                exact this
              · have hc := post.closure e' hmem
                have hc1 := hc.1
                rw [hlen_set] at hc1
                refine ⟨hc1, ?_⟩
                rcases hc.2 with hv | ⟨r, hr1, hr2⟩
                · rw [hvis_set] at hv
                  exact Or.inl hv
                · rw [htcur] at hr1
                  exact Or.inr ⟨r, hr1, hr2⟩
            · -- qval
              intro hq
              refine post.qval ?_
              intro p hp
              rcases mem_queueInsert hp with rfl | hpq
              · exact Nat.le_of_eq (congrArg NodeState.value hset_nb)
              · exact Nat.le_trans (hval_set p.2) (hq p hpq)
            · -- inq
              intro hq v hvlen hv1 hv2
              refine post.inq ?_ v (by rwa [hlen_set]) hv1 hv2
              intro w hwlen hwvis hwval
              rw [hlen_set] at hwlen
              by_cases hw : e.connection_node = w
              · subst hw
                rw [hset_nb] at hwval ⊢
                exact queueInsert_mem_self _ _
              · rw [hset_ne w hw] at hwvis hwval ⊢
                exact queueInsert_subset _ _ _ (hq w hwlen hwvis hwval)
          · -- not an improvement: state unchanged for this edge
            rename_i hnless
            have post := ih ns q hvisu h
            exact {
              len := post.len
              vis_eq := post.vis_eq
              frozen := post.frozen
              val_mono := post.val_mono
              qsub := post.qsub
              qnew := fun p hp => by
                rcases post.qnew p hp with hin | ⟨h1, h2, h3, e', he', h4⟩
                · exact Or.inl hin
                · exact Or.inr ⟨h1, h2, h3, e', List.mem_cons_of_mem _ he', h4⟩
              touched := fun v => by
                rcases post.touched v with hsame | ⟨h1, h2, h3, h4, e', he', h5⟩
                · exact Or.inl hsame
                · exact Or.inr ⟨h1, h2, h3, h4, e',
                    List.mem_cons_of_mem _ he', h5⟩
              closure := fun e' he' => by
                rcases List.mem_cons.mp he' with rfl | hmem
                · refine ⟨hlt, Or.inr ⟨upd, hupd, ?_⟩⟩
                  exact Nat.le_trans (post.val_mono e'.connection_node)
                    (Nat.le_of_not_lt hnless)
                · exact post.closure e' hmem
              qval := post.qval
              inq := post.inq }
    · exact Option.noConfusion h

/-- Loop invariant of the search, tying the node states `ns`, the
priority structure `q` and the finalization trace `tr` to the graph and
start node.  It holds on entry to every iteration of the main loop. -/
structure Inv (g : Graph) (s : Nat) (ns : List NodeState)
    (q : List (Nat × Nat)) (tr : List (Nat × Nat)) : Prop where
  len : ns.length = g.numNodes
  sn : s < g.numNodes
  vs : (ns.getD s dflt).value = 0
  vle : ∀ v, (ns.getD v dflt).value ≤ INF
  qmem : ∀ p ∈ q, p.2 < g.numNodes ∧ p.1 < INF ∧ Reach g s p.2 p.1 ∧
    (ns.getD p.2 dflt).value ≤ p.1 ∧
    (p.2 ≠ s → (ns.getD p.2 dflt).prev_node ≠ none)
  vreach : ∀ v, v < g.numNodes → (ns.getD v dflt).value ≠ INF →
    Reach g s v ((ns.getD v dflt).value)
  inq : ∀ v, v < ns.length → (ns.getD v dflt).visited = false →
    (ns.getD v dflt).value ≠ INF → ((ns.getD v dflt).value, v) ∈ q
  opt : ∀ v, (ns.getD v dflt).visited = true →
    IsLeast {t | Reach g s v t} ((ns.getD v dflt).value)
  fin : ∀ v, (ns.getD v dflt).visited = true → (ns.getD v dflt).value < INF
  closure : ∀ x, (ns.getD x dflt).visited = true → ∀ e ∈ g.edgesOf x,
    e.connection_node < ns.length ∧
    ((ns.getD e.connection_node dflt).visited = true ∨
      ∃ r, get_travel_time e ((ns.getD x dflt).value) = some r ∧
        (ns.getD e.connection_node dflt).value ≤ r)
  pvis : ∀ v u, (ns.getD v dflt).prev_node = some u →
    (ns.getD u dflt).visited = true
  pval : ∀ v, (ns.getD v dflt).prev_node ≠ none →
    (ns.getD v dflt).value ≠ INF
  ps : (ns.getD s dflt).prev_node = none
  pne : ∀ v, (ns.getD v dflt).visited = true → v ≠ s →
    (ns.getD v dflt).prev_node ≠ none
  trVis : ∀ v, v < g.numNodes →
    ((ns.getD v dflt).visited = true ↔ v ∈ tr.map Prod.fst)
  trLt : ∀ p ∈ tr, p.1 < g.numNodes
  trNodup : (tr.map Prod.fst).Nodup
  trVal : ∀ p ∈ tr, (ns.getD p.1 dflt).value = p.2
  trSorted : tr.Pairwise (fun a b => a.2 ≤ b.2)
  trQ : ∀ p ∈ tr, ∀ k ∈ q, p.2 ≤ k.1
  trPrev : ∀ (j : Nat) (hj : j < tr.length) (u : Nat),
    (ns.getD (tr.get ⟨j, hj⟩).1 dflt).prev_node = some u →
    ∃ (i : Nat) (hi : i < tr.length), i < j ∧ (tr.get ⟨i, hi⟩).1 = u

/-- Greedy bound: when the least key of the priority structure is `t`,
no path can reach any still-unvisited node strictly earlier than `t`. -/
theorem greedy_bound {g : Graph} {s : Nat} {ns : List NodeState}
    {q : List (Nat × Nat)} {tr : List (Nat × Nat)} (inv : Inv g s ns q tr)
    {t : Nat} (hmin : ∀ p ∈ q, t ≤ p.1) (ht : t ≤ INF) :
    ∀ v T, Reach g s v T → (ns.getD v dflt).visited = false → t ≤ T := by
  intro v T hreach
  induction hreach with
  | refl =>
    intro hnv
    have h0 : ((ns.getD s dflt).value, s) ∈ q :=
      inv.inq s (by rw [inv.len]; exact inv.sn) hnv
        (by rw [inv.vs]; exact (by decide : (0 : Nat) ≠ INF))
    have := hmin _ h0
    rw [inv.vs] at this
    omega
  | step hr he htr ihx =>
    rename_i x tx T' e
    intro hnv
    by_cases hvx : (ns.getD x dflt).visited = true
    · have hcl := inv.closure x hvx e he
      rcases hcl.2 with hvh | ⟨r, hr1, hr2⟩
      · rw [hnv] at hvh
        exact Bool.noConfusion hvh
      · have hopt := inv.opt x hvx
        have hvalx_le : (ns.getD x dflt).value ≤ tx := hopt.2 hr
        have hmono : r ≤ T' := get_travel_time_mono e hvalx_le hr1 htr
        by_cases hINF : (ns.getD e.connection_node dflt).value = INF
        · omega
        · have hq := inv.inq e.connection_node hcl.1 hnv hINF
          have := hmin _ hq
          omega
    · have htx : t ≤ tx := ihx (by simpa using hvx)
      have hT : tx ≤ T' := get_travel_time_ge e hr.le_INF htr
      omega

theorem getD_eq_dflt (l : List NodeState) {v : Nat} (h : l.length ≤ v) :
    l.getD v dflt = dflt := by
  rw [List.getD_eq_getElem?_getD, List.getElem?_eq_none h]
  rfl

theorem visited_lt_length {l : List NodeState} {v : Nat}
    (h : (l.getD v dflt).visited = true) : v < l.length := by
  by_contra hc
  rw [getD_eq_dflt l (by omega)] at h
  exact Bool.noConfusion h

/-- One finalization step preserves the invariant: extracting the least
pair `(t, u)` with `u` unvisited, marking `u` visited and relaxing its
outgoing edges yields a state satisfying the invariant again, with
`(u, value)` appended to the trace. -/
theorem inv_step {g : Graph} {s : Nat} {ns : List NodeState}
    {q : List (Nat × Nat)} {tr : List (Nat × Nat)} {t u : Nat}
    {ns2 : List NodeState} {q2 : List (Nat × Nat)}
    (inv : Inv g s ns q tr)
    (hm : findMin q = some (t, u))
    (hu : u < ns.length)
    (hv : (ns.getD u dflt).visited = false)
    (hr : relaxEdges u (g.edgesOf u)
      (ns.set u { ns.getD u dflt with visited := true }) (q.erase (t, u)) =
      some (ns2, q2)) :
    Inv g s ns2 q2 (tr ++ [(u, (ns.getD u dflt).value)]) := by
  -- facts about the extracted pair
  obtain ⟨hun0, htINF0, hReach0, hval_le0, hprev0⟩ :=
    inv.qmem (t, u) (findMin_mem hm)
  have hun : u < g.numNodes := hun0
  have htINF : t < INF := htINF0
  have hReach_u_t : Reach g s u t := hReach0
  have hval_le_t : (ns.getD u dflt).value ≤ t := hval_le0
  have hprev_u : u ≠ s → (ns.getD u dflt).prev_node ≠ none := hprev0
  have hmin : ∀ p ∈ q, t ≤ p.1 := by
    intro p hp
    have h2 : t < p.1 ∨ (t = p.1 ∧ u ≤ p.2) := findMin_le hm p hp
    omega
  have hvalu_ne : (ns.getD u dflt).value ≠ INF := by omega
  have hvu_mem : ((ns.getD u dflt).value, u) ∈ q := inv.inq u hu hv hvalu_ne
  have hteq : (ns.getD u dflt).value = t := by
    have := hmin _ hvu_mem
    omega
  have hopt_u : IsLeast {T | Reach g s u T} t :=
    ⟨hReach_u_t, fun T hT => greedy_bound inv hmin (by omega) u T hT hv⟩
  -- name the intermediate (marked) state and the shrunk queue
  obtain ⟨ns1, hns1⟩ : ∃ x, ns.set u { ns.getD u dflt with visited := true } = x :=
    ⟨_, rfl⟩
  obtain ⟨q1, hq1⟩ : ∃ x, q.erase (t, u) = x := ⟨_, rfl⟩
  rw [hns1, hq1] at hr
  have hmarked : ns1.getD u dflt = { ns.getD u dflt with visited := true } := by
    rw [← hns1]
    exact getD_set_self _ _ _ hu
  have hmark_ne : ∀ v, v ≠ u → ns1.getD v dflt = ns.getD v dflt := by
    intro v hvne
    rw [← hns1]
    exact getD_set_ne _ _ (Ne.symm hvne)
  have hlen1 : ns1.length = ns.length := by
    rw [← hns1]
    exact List.length_set ..
  have hval1 : ∀ v, (ns1.getD v dflt).value = (ns.getD v dflt).value := by
    intro v
    by_cases hvne : v = u
    · subst hvne
      rw [hmarked]
    · rw [hmark_ne v hvne]
  have hvis1u : (ns1.getD u dflt).visited = true := by rw [hmarked]
  have hq1mem : ∀ p ∈ q1, p ∈ q := by
    intro p hp
    rw [← hq1] at hp
    exact List.mem_of_mem_erase hp
  have post := relaxEdges_spec u (g.edgesOf u) ns1 q1 hvis1u hr
  have hlen2 : ns2.length = ns.length := post.len.trans hlen1
  have htcur : (ns1.getD u dflt).value = t := (hval1 u).trans hteq
  -- the finalized node's record survives the relaxation untouched
  have hfrozen2u : ns2.getD u dflt = { ns.getD u dflt with visited := true } :=
    (post.frozen u hvis1u).trans hmarked
  have hval2u : (ns2.getD u dflt).value = (ns.getD u dflt).value := by
    rw [hfrozen2u]
  have hprev2u : (ns2.getD u dflt).prev_node = (ns.getD u dflt).prev_node := by
    rw [hfrozen2u]
  have hvis2u : (ns2.getD u dflt).visited = true := by rw [hfrozen2u]
  -- records of previously visited nodes survive both steps untouched
  have hfrozen2 : ∀ v, (ns.getD v dflt).visited = true →
      ns2.getD v dflt = ns.getD v dflt := by
    intro v hvv
    have hvne : v ≠ u := by
      intro hc
      rw [hc, hv] at hvv
      exact Bool.noConfusion hvv
    rw [post.frozen v (by rw [hmark_ne v hvne]; exact hvv), hmark_ne v hvne]
  have hvis2' : ∀ v, v ≠ u →
      (ns2.getD v dflt).visited = (ns.getD v dflt).visited := by
    intro v hvne
    rw [post.vis_eq v, hmark_ne v hvne]
  have hval2_le : ∀ v, (ns2.getD v dflt).value ≤ (ns.getD v dflt).value := by
    intro v
    have := post.val_mono v
    rw [hval1 v] at this
    exact this
  have hqval_global : ∀ p ∈ q2, (ns2.getD p.2 dflt).value ≤ p.1 := by
    refine post.qval ?_
    intro p hp
    rw [hval1 p.2]
    exact (inv.qmem p (hq1mem p hp)).2.2.2.1
  -- entry-state formulation of the relaxation's touched-record property
  have htouched : ∀ v, v ≠ u → (ns2.getD v dflt = ns.getD v dflt ∨
      ((ns2.getD v dflt).prev_node = some u ∧
       (ns2.getD v dflt).value < (ns.getD v dflt).value ∧
       (ns.getD v dflt).visited = false ∧ v < ns.length ∧
       ∃ e ∈ g.edgesOf u, e.connection_node = v ∧
         get_travel_time e t = some ((ns2.getD v dflt).value))) := by
    intro v hvne
    rcases post.touched v with hsame | ⟨h1, h2, h3, h4, e, he, h5, h6⟩
    · exact Or.inl (hsame.trans (hmark_ne v hvne))
    · right
      rw [hval1 v] at h2
      rw [hmark_ne v hvne] at h3
      rw [hlen1] at h4
      rw [htcur] at h6
      exact ⟨h1, h2, h3, h4, e, he, h5, h6⟩
  -- entry-state formulation of the relaxation's new queue entries
  have hqnew : ∀ p ∈ q2, p ∈ q ∨ (p.2 ≠ u ∧ p.2 < ns.length ∧
      (ns.getD p.2 dflt).visited = false ∧ p.1 < (ns.getD p.2 dflt).value ∧
      ∃ e ∈ g.edgesOf u, e.connection_node = p.2 ∧
        get_travel_time e t = some p.1) := by
    intro p hp
    rcases post.qnew p hp with hin | ⟨h1, h2, h3, e, he, h4, h5⟩
    · exact Or.inl (hq1mem p hin)
    · have hpne : p.2 ≠ u := by
        intro hc
        rw [hc, hvis1u] at h2
        exact Bool.noConfusion h2
      rw [hmark_ne p.2 hpne] at h2
      rw [hval1 p.2] at h3
      rw [hlen1] at h1
      rw [htcur] at h5
      exact Or.inr ⟨hpne, h1, h2, h3, e, he, h4, h5⟩
  -- new queue keys are at least t
  have hkey_ge : ∀ p ∈ q2, t ≤ p.1 := by
    intro p hp
    rcases hqnew p hp with hin | ⟨_, _, _, _, e, _, _, h5⟩
    · exact hmin p hin
    · exact get_travel_time_ge e (by omega) h5
  refine {
    len := hlen2.trans inv.len
    sn := inv.sn
    vs := ?_
    vle := fun v => Nat.le_trans (hval2_le v) (inv.vle v)
    qmem := ?_
    vreach := ?_
    inq := ?_
    opt := ?_
    fin := ?_
    closure := ?_
    pvis := ?_
    pval := ?_
    ps := ?_
    pne := ?_
    trVis := ?_
    trLt := ?_
    trNodup := ?_
    trVal := ?_
    trSorted := ?_
    trQ := ?_
    trPrev := ?_ }
  · -- vs
    by_cases hsu : s = u
    · rw [hsu, hval2u, ← hsu, inv.vs]
    · rcases htouched s hsu with hsame | ⟨_, hlt2, _⟩
      · rw [hsame, inv.vs]
      · rw [inv.vs] at hlt2
        omega
  · -- qmem
    intro p hp
    have hqv := hqval_global p hp
    rcases hqnew p hp with hin | ⟨hpne, h1, h2, h3, e, he, h4, h5⟩
    · obtain ⟨k1, k2, k3, _, k5⟩ := inv.qmem p hin
      refine ⟨k1, k2, k3, hqv, ?_⟩
      intro hps
      have hold := k5 hps
      by_cases hpu : p.2 = u
      · rw [hpu, hprev2u, ← hpu]
        exact hold
      · rcases htouched p.2 hpu with hsame | ⟨hp1, _⟩
        · rw [hsame]
          exact hold
        · rw [hp1]
          simp
    · have hplt : p.1 < INF := by
        have := inv.vle p.2
        omega
      have hReachp : Reach g s p.2 p.1 := by
        have hstep := Reach.step hReach_u_t he h5
        rwa [h4] at hstep
      refine ⟨by rw [← inv.len]; exact h1, hplt, hReachp, hqv, ?_⟩
      intro _
      rcases htouched p.2 hpne with hsame | ⟨hp1, _⟩
      · exfalso
        have : (ns2.getD p.2 dflt).value = (ns.getD p.2 dflt).value := by
          rw [hsame]
        omega
      · rw [hp1]
        simp
  · -- vreach
    intro v hvn hne
    by_cases hvu2 : v = u
    · subst hvu2
      rw [hval2u, hteq]
      exact hReach_u_t
    · rcases htouched v hvu2 with hsame | ⟨_, _, _, _, e, he, hhead, htrv⟩
      · rw [hsame] at hne ⊢
        exact inv.vreach v hvn hne
      · have hstep := Reach.step hReach_u_t he htrv
        rwa [hhead] at hstep
  · -- inq
    intro v hvlen hvvis hvval
    refine post.inq ?_ v (by rw [hlen1]; rw [hlen2] at hvlen; exact hvlen)
      hvvis hvval
    intro w hwlen hwvis hwval
    have hwne : w ≠ u := by
      intro hc
      rw [hc, hvis1u] at hwvis
      exact Bool.noConfusion hwvis
    rw [hmark_ne w hwne] at hwvis hwval ⊢
    rw [hlen1] at hwlen
    have hmem := inv.inq w hwlen hwvis hwval
    have hne2 : ((ns.getD w dflt).value, w) ≠ (t, u) := by
      intro hc
      exact hwne (congrArg Prod.snd hc)
    rw [← hq1]
    exact (List.mem_erase_of_ne hne2).mpr hmem
  · -- opt
    intro v hvv
    by_cases hvu2 : v = u
    · subst hvu2
      rw [hval2u, hteq]
      exact hopt_u
    · have hvisv : (ns.getD v dflt).visited = true := by
        rw [← hvis2' v hvu2]
        exact hvv
      rw [hfrozen2 v hvisv]
      exact inv.opt v hvisv
  · -- fin
    intro v hvv
    by_cases hvu2 : v = u
    · subst hvu2
      rw [hval2u, hteq]
      omega
    · have hvisv : (ns.getD v dflt).visited = true := by
        rw [← hvis2' v hvu2]
        exact hvv
      rw [hfrozen2 v hvisv]
      exact inv.fin v hvisv
  · -- closure
    intro x hvx e he
    by_cases hxu : x = u
    · subst hxu
      have hc := post.closure e he
      constructor
      · rw [post.len]
        exact hc.1
      · rcases hc.2 with hvh | ⟨r, hr1, hr2⟩
        · left
          rw [post.vis_eq]
          exact hvh
        · right
          rw [htcur] at hr1
          rw [hval2u, hteq]
          exact ⟨r, hr1, hr2⟩
    · have hvisx : (ns.getD x dflt).visited = true := by
        rw [← hvis2' x hxu]
        exact hvx
      have hcx := inv.closure x hvisx e he
      constructor
      · rw [hlen2]
        exact hcx.1
      · rcases hcx.2 with hvh | ⟨r, hr1, hr2⟩
        · left
          by_cases hhu : e.connection_node = u
          · rw [hhu]
            exact hvis2u
          · rw [hvis2' _ hhu]
            exact hvh
        · right
          rw [hfrozen2 x hvisx]
          exact ⟨r, hr1, Nat.le_trans (hval2_le e.connection_node) hr2⟩
  · -- pvis
    intro v w hpw
    by_cases hvu2 : v = u
    · rw [hvu2, hprev2u] at hpw
      have hvw := inv.pvis u w hpw
      by_cases hwu : w = u
      · rw [hwu]
        exact hvis2u
      · rw [hvis2' w hwu]
        exact hvw
    · rcases htouched v hvu2 with hsame | ⟨hp1, _⟩
      · rw [hsame] at hpw
        have hvw := inv.pvis v w hpw
        by_cases hwu : w = u
        · rw [hwu]
          exact hvis2u
        · rw [hvis2' w hwu]
          exact hvw
      · rw [hp1] at hpw
        rw [← Option.some.inj hpw]
        exact hvis2u
  · -- pval
    intro v hpv
    by_cases hvu2 : v = u
    · rw [hvu2, hval2u, hteq]
      omega
    · rcases htouched v hvu2 with hsame | ⟨_, hlt2, _⟩
      · rw [hsame] at hpv ⊢
        exact inv.pval v hpv
      · have := inv.vle v
        omega
  · -- ps
    by_cases hsu : s = u
    · rw [hsu, hprev2u, ← hsu]
      exact inv.ps
    · rcases htouched s hsu with hsame | ⟨_, hlt2, _⟩
      · rw [hsame]
        exact inv.ps
      · rw [inv.vs] at hlt2
        omega
  · -- pne
    intro v hvv hvs
    by_cases hvu2 : v = u
    · rw [hvu2, hprev2u]
      rw [hvu2] at hvs
      exact hprev_u hvs
    · have hvisv : (ns.getD v dflt).visited = true := by
        rw [← hvis2' v hvu2]
        exact hvv
      rw [hfrozen2 v hvisv]
      exact inv.pne v hvisv hvs
  · -- trVis
    intro v hvn
    rw [List.map_append]
    simp only [List.map_cons, List.map_nil]
    constructor
    · intro hvv
      by_cases hvu2 : v = u
      · exact List.mem_append.mpr (Or.inr (by rw [hvu2]; exact List.mem_singleton_self u))
      · exact List.mem_append.mpr (Or.inl ((inv.trVis v hvn).mp
          (by rw [← hvis2' v hvu2]; exact hvv)))
    · intro hin
      rcases List.mem_append.mp hin with hl | hr2
      · have hvisv := (inv.trVis v hvn).mpr hl
        have hvu2 : v ≠ u := by
          intro hc
          rw [hc, hv] at hvisv
          exact Bool.noConfusion hvisv
        rw [hvis2' v hvu2]
        exact hvisv
      · rw [List.mem_singleton.mp hr2]
        exact hvis2u
  · -- trLt
    intro p hp
    rcases List.mem_append.mp hp with hl | hr2
    · exact inv.trLt p hl
    · rw [List.mem_singleton.mp hr2]
      exact hun
  · -- trNodup
    rw [List.map_append]
    simp only [List.map_cons, List.map_nil]
    rw [List.nodup_append]
    refine ⟨inv.trNodup, List.nodup_singleton u, ?_⟩
    intro a ha hb
    have hau : a = u := List.mem_singleton.mp hb
    subst hau
    have := (inv.trVis a hun).mpr ha
    rw [hv] at this
    exact Bool.noConfusion this
  · -- trVal
    intro p hp
    rcases List.mem_append.mp hp with hl | hr2
    · have hvisp : (ns.getD p.1 dflt).visited = true :=
        (inv.trVis p.1 (inv.trLt p hl)).mpr (List.mem_map.mpr ⟨p, hl, rfl⟩)
      rw [hfrozen2 p.1 hvisp]
      exact inv.trVal p hl
    · rw [List.mem_singleton.mp hr2]
      exact hval2u
  · -- trSorted
    rw [List.pairwise_append]
    refine ⟨inv.trSorted, List.pairwise_singleton _ _, ?_⟩
    intro a ha b hb
    rw [List.mem_singleton.mp hb]
    have := inv.trQ a ha (t, u) (findMin_mem hm)
    rw [hteq]
    exact this
  · -- trQ
    intro p hp k hk
    rcases List.mem_append.mp hp with hl | hr2
    · have hge := hkey_ge k hk
      have hpt : p.2 ≤ t := inv.trQ p hl (t, u) (findMin_mem hm)
      omega
    · rw [List.mem_singleton.mp hr2]
      have hge := hkey_ge k hk
      rw [hteq]
      exact hge
  · -- trPrev
    intro j hj w hpw
    by_cases hjl : j < tr.length
    · have hget : (tr ++ [(u, (ns.getD u dflt).value)]).get ⟨j, hj⟩ =
          tr.get ⟨j, hjl⟩ := List.get_append j hjl
      rw [hget] at hpw
      have hmem : tr.get ⟨j, hjl⟩ ∈ tr := List.get_mem tr j hjl
      have hvj : (ns.getD (tr.get ⟨j, hjl⟩).1 dflt).visited = true :=
        (inv.trVis _ (inv.trLt _ hmem)).mpr
          (List.mem_map.mpr ⟨_, hmem, rfl⟩)
      rw [hfrozen2 _ hvj] at hpw
      obtain ⟨i, hi, hij, hieq⟩ := inv.trPrev j hjl w hpw
      refine ⟨i, by simp only [List.length_append, List.length_cons,
        List.length_nil]; omega, hij, ?_⟩
      rw [List.get_append i hi]
      exact hieq
    · have hje : j = tr.length := by
        simp only [List.length_append, List.length_cons, List.length_nil] at hj
        omega
      have hget : (tr ++ [(u, (ns.getD u dflt).value)]).get ⟨j, hj⟩ =
          (u, (ns.getD u dflt).value) := by
        subst hje
        simp
      rw [hget] at hpw
      have hpw' : (ns.getD u dflt).prev_node = some w := by
        rw [← hprev2u]
        exact hpw
      have hvw : (ns.getD w dflt).visited = true := inv.pvis u w hpw'
      have hwn : w < g.numNodes := by
        rw [← inv.len]
        exact visited_lt_length hvw
      have hwin : w ∈ tr.map Prod.fst := (inv.trVis w hwn).mp hvw
      obtain ⟨p, hp, hpfst⟩ := List.mem_map.mp hwin
      obtain ⟨⟨i, hi⟩, hieq⟩ := List.mem_iff_get.mp hp
      refine ⟨i, by simp only [List.length_append, List.length_cons,
        List.length_nil]; omega, by omega, ?_⟩
      rw [List.get_append i hi, hieq, hpfst]

/-- Discarding a stale entry (already-visited node) preserves the
invariant. -/
theorem inv_erase {g : Graph} {s : Nat} {ns : List NodeState}
    {q : List (Nat × Nat)} {tr : List (Nat × Nat)} {t u : Nat}
    (inv : Inv g s ns q tr)
    (hvis : (ns.getD u dflt).visited = true) :
    Inv g s ns (q.erase (t, u)) tr :=
  { inv with
    qmem := fun p hp => inv.qmem p (List.mem_of_mem_erase hp)
    inq := fun v h1 h2 h3 => by
      have hne : ((ns.getD v dflt).value, v) ≠ (t, u) := by
        intro hc
        have hvu : v = u := congrArg Prod.snd hc
        rw [hvu, hvis] at h2
        exact Bool.noConfusion h2
      exact (List.mem_erase_of_ne hne).mpr (inv.inq v h1 h2 h3)
    trQ := fun p hp k hk => inv.trQ p hp k (List.mem_of_mem_erase hk) }

/-- Master preservation theorem: a completing run of the instrumented
loop carries the invariant from its entry state to its final state, and
the priority structure is empty on termination. -/
theorem dijkstraLoopTrace_inv (g : Graph) (s : Nat) :
    ∀ (ns : List NodeState) (q : List (Nat × Nat))
      (tr : List (Nat × Nat)) {st : List NodeState} {tr' : List (Nat × Nat)},
    Inv g s ns q tr → dijkstraLoopTrace g ns q tr = some (st, tr') →
    Inv g s st [] tr' := by
  intro ns q
  induction ns, q using dijkstraLoop.induct g with
  | case1 ns q hm =>
    intro tr st tr' inv h
    unfold dijkstraLoopTrace at h
    rw [hm] at h
    obtain ⟨rfl, rfl⟩ : ns = st ∧ tr = tr' := by
      have := Option.some.inj h
      exact ⟨congrArg Prod.fst this, congrArg Prod.snd this⟩
    have hq : q = [] := findMin_eq_none hm
    rw [hq] at inv
    exact inv
  | case2 ns q t u hm hu hv ih =>
    intro tr st tr' inv h
    unfold dijkstraLoopTrace at h
    rw [hm] at h
    simp only [hu, hv, dif_pos, if_pos] at h
    exact ih tr (inv_erase inv hv) h
  | case3 ns q t u hm hu hv hr =>
    intro tr st tr' inv h
    unfold dijkstraLoopTrace at h
    rw [hm] at h
    simp only [hu, hv, dif_pos, if_neg] at h
    rw [hr] at h
    exact Option.noConfusion h
  | case4 ns q t u hm hu hv ns2 q2 hr ih =>
    intro tr st tr' inv h
    unfold dijkstraLoopTrace at h
    rw [hm] at h
    simp only [hu, hv, dif_pos, if_neg] at h
    rw [hr] at h
    exact ih _ (inv_step inv hm hu (by simpa using hv) hr) h
  | case5 ns q t u hm hu =>
    intro tr st tr' inv h
    unfold dijkstraLoopTrace at h
    rw [hm] at h
    simp only [hu] at h
    exact Option.noConfusion h

/-- The state set up by `dijkstra_timetable` before entering the loop
satisfies the invariant. -/
theorem inv_init (g : Graph) (s : Nat) (hs : s < g.numNodes) :
    Inv g s ((graph_reset g.numNodes).set s
      { (graph_reset g.numNodes).getD s dflt with value := 0 })
      (queueInsert (0, s) []) [] := by
  have hreplen : (graph_reset g.numNodes).length = g.numNodes := by
    unfold graph_reset
    exact List.length_replicate ..
  have hrep : ∀ v, v < g.numNodes →
      (graph_reset g.numNodes).getD v dflt = ⟨INF, false, none⟩ := by
    intro v hvn
    unfold graph_reset
    rw [List.getD_eq_getElem?_getD, List.getElem?_replicate, if_pos hvn]
    rfl
  have hq : queueInsert (0, s) [] = [(0, s)] := by
    unfold queueInsert
    rw [if_neg (List.not_mem_nil _)]
  obtain ⟨ns0, hns0⟩ : ∃ x, (graph_reset g.numNodes).set s
      { (graph_reset g.numNodes).getD s dflt with value := 0 } = x := ⟨_, rfl⟩
  rw [hns0, hq]
  have hlen0 : ns0.length = g.numNodes := by
    rw [← hns0, List.length_set, hreplen]
  have hst : ns0.getD s dflt = ⟨0, false, none⟩ := by
    rw [← hns0, getD_set_self _ _ _ (by rw [hreplen]; exact hs), hrep s hs]
  have hother : ∀ v, v ≠ s → v < g.numNodes →
      ns0.getD v dflt = ⟨INF, false, none⟩ := by
    intro v hvs hvn
    rw [← hns0, getD_set_ne _ _ (fun hc => hvs hc.symm), hrep v hvn]
  have hoob : ∀ v, ¬(v < g.numNodes) → ns0.getD v dflt = dflt := by
    intro v hvn
    exact getD_eq_dflt ns0 (by omega)
  have hnovisit : ∀ v, (ns0.getD v dflt).visited = false := by
    intro v
    by_cases hvs : v = s
    · rw [hvs, hst]
    · by_cases hvn : v < g.numNodes
      · rw [hother v hvs hvn]
      · rw [hoob v hvn]
        rfl
  have hnoprev : ∀ v, (ns0.getD v dflt).prev_node = none := by
    intro v
    by_cases hvs : v = s
    · rw [hvs, hst]
    · by_cases hvn : v < g.numNodes
      · rw [hother v hvs hvn]
      · rw [hoob v hvn]
        rfl
  refine {
    len := hlen0
    sn := hs
    vs := by rw [hst]
    vle := ?_
    qmem := ?_
    vreach := ?_
    inq := ?_
    opt := fun v hvv => absurd hvv (by rw [hnovisit v]; exact Bool.noConfusion)
    fin := fun v hvv => absurd hvv (by rw [hnovisit v]; exact Bool.noConfusion)
    closure := fun x hvx => absurd hvx (by rw [hnovisit x]; exact Bool.noConfusion)
    pvis := fun v w hpw => absurd hpw (by rw [hnoprev v]; exact Option.noConfusion)
    pval := fun v hpv => absurd (hnoprev v) hpv
    ps := hnoprev s
    pne := fun v hvv _ => absurd hvv (by rw [hnovisit v]; exact Bool.noConfusion)
    trVis := ?_
    trLt := fun p hp => absurd hp (List.not_mem_nil _)
    trNodup := List.nodup_nil
    trVal := fun p hp => absurd hp (List.not_mem_nil _)
    trSorted := List.Pairwise.nil
    trQ := fun p hp => absurd hp (List.not_mem_nil _)
    trPrev := fun j hj => absurd hj (by simp) }
  · -- vle
    intro v
    by_cases hvs : v = s
    · rw [hvs, hst]
      exact Nat.zero_le _
    · by_cases hvn : v < g.numNodes
      · rw [hother v hvs hvn]
      · rw [hoob v hvn]
        exact Nat.zero_le _
  · -- qmem
    intro p hp
    have hps : p = (0, s) := List.mem_singleton.mp hp
    subst hps
    refine ⟨hs, by show (0 : Nat) < INF; decide, Reach.refl, ?_, ?_⟩
    · rw [hst]
    · intro hss
      exact absurd rfl hss
  · -- vreach
    intro v hvn hne
    by_cases hvs : v = s
    · subst hvs
      rw [hst]
      exact Reach.refl
    · rw [hother v hvs hvn] at hne
      exact absurd rfl hne
  · -- inq
    intro v hvlen hvvis hvval
    by_cases hvs : v = s
    · subst hvs
      rw [hst]
      exact List.mem_singleton_self _
    · rw [hother v hvs (by rw [← hlen0]; exact hvlen)] at hvval
      exact absurd rfl hvval
  · -- trVis
    intro v hvn
    rw [hnovisit v]
    simp

/-- A completed run of `dijkstra_timetable` corresponds to a completed
run of the instrumented variant, whose final state satisfies the
invariant with an empty priority structure. -/
theorem dijkstra_timetable_trace_run {g : Graph} {s : Nat}
    {st : List NodeState} (hrun : dijkstra_timetable g s = some st) :
    ∃ tr, dijkstra_timetableTrace g s = some (st, tr) ∧ Inv g s st [] tr := by
  have hs : s < g.numNodes := by
    by_contra hc
    unfold dijkstra_timetable at hrun
    rw [if_neg hc] at hrun
    exact Option.noConfusion hrun
  have hmap := dijkstra_timetableTrace_fst g s
  rw [hrun] at hmap
  rcases h2 : dijkstra_timetableTrace g s with _ | pr
  · rw [h2] at hmap
    exact Option.noConfusion hmap
  · rw [h2] at hmap
    obtain ⟨st2, tr⟩ := pr
    have hst2 : st2 = st := by
      have : some st2 = some st := hmap
      exact Option.some.inj this
    subst hst2
    refine ⟨tr, rfl, ?_⟩
    unfold dijkstra_timetableTrace at h2
    rw [if_pos hs] at h2
    exact dijkstraLoopTrace_inv g s _ _ _ (inv_init g s hs) h2

/-- At completion, every still-unvisited node of the graph holds the
sentinel value. -/
theorem inv_final_unvisited {g : Graph} {s : Nat} {st : List NodeState}
    {tr : List (Nat × Nat)} (inv : Inv g s st [] tr) :
    ∀ v, v < g.numNodes → (st.getD v dflt).visited = false →
      (st.getD v dflt).value = INF := by
  intro v hvn hvv
  by_contra hne
  exact absurd (inv.inq v (by rw [inv.len]; exact hvn) hvv hne)
    (List.not_mem_nil _)

/-- At completion, every node reachable at a time below the sentinel is
visited, with a value bounded by that arrival time. -/
theorem inv_final_vis_reach {g : Graph} {s : Nat} {st : List NodeState}
    {tr : List (Nat × Nat)} (inv : Inv g s st [] tr) :
    ∀ v T, Reach g s v T → T < INF →
      (st.getD v dflt).visited = true ∧ (st.getD v dflt).value ≤ T := by
  intro v T hreach
  induction hreach with
  | refl =>
    intro _
    have hsv : (st.getD s dflt).visited = true := by
      by_contra hc
      have hsv' : (st.getD s dflt).visited = false := by simpa using hc
      have hmem := inv.inq s (by rw [inv.len]; exact inv.sn) hsv'
        (by rw [inv.vs]; exact (by decide : (0 : Nat) ≠ INF))
      exact absurd hmem (List.not_mem_nil _)
    refine ⟨hsv, ?_⟩
    rw [inv.vs]
  | step hr he htr ihx =>
    rename_i x tx T' e
    intro hT
    have htx_le : tx ≤ T' := get_travel_time_ge e hr.le_INF htr
    obtain ⟨hvx, hvalx⟩ := ihx (by omega)
    have hcl := inv.closure x hvx e he
    rcases hcl.2 with hvh | ⟨r, hr1, hr2⟩
    · exact ⟨hvh, (inv.opt _ hvh).2 (Reach.step hr he htr)⟩
    · have hrT : r ≤ T' := get_travel_time_mono e hvalx hr1 htr
      have hvalh : (st.getD e.connection_node dflt).value ≤ T' :=
        Nat.le_trans hr2 hrT
      have hne : (st.getD e.connection_node dflt).value ≠ INF := by omega
      have hvish : (st.getD e.connection_node dflt).visited = true := by
        by_contra hc
        have hmem := inv.inq e.connection_node hcl.1 (by simpa using hc) hne
        exact absurd hmem (List.not_mem_nil _)
      exact ⟨hvish, hvalh⟩

/-- Claim C1: after a completing run of `dijkstra_timetable`, every node
of the graph that is reachable from the start carries the least arrival
time over all paths (the minimum of the cumulative applications of the
schedule function along paths, starting from time 0), and every
unreachable node keeps the sentinel `INF`. -/
theorem dijkstra_timetable_correct (g : Graph) (s : Nat)
    (st : List NodeState) (hrun : dijkstra_timetable g s = some st) :
    ∀ v, v < g.numNodes →
      ((∃ T, Reach g s v T) →
        IsLeast {T | Reach g s v T} ((st.getD v dflt).value)) ∧
      (¬(∃ T, Reach g s v T) → (st.getD v dflt).value = INF) := by
  obtain ⟨tr, _, inv⟩ := dijkstra_timetable_trace_run hrun
  intro v hvn
  constructor
  · intro hex
    by_cases hlow : ∃ T, Reach g s v T ∧ T < INF
    · obtain ⟨T, hT, hTlt⟩ := hlow
      obtain ⟨hvis, _⟩ := inv_final_vis_reach inv v T hT hTlt
      exact inv.opt v hvis
    · -- every arrival equals the sentinel exactly
      have hall : ∀ T, Reach g s v T → T = INF := by
        intro T hT
        have h1 : T ≤ INF := hT.le_INF
        by_contra hc
        exact hlow ⟨T, hT, by omega⟩
      have hvv : (st.getD v dflt).visited = false := by
        by_contra hc
        have hvis : (st.getD v dflt).visited = true := by simpa using hc
        have h1 := (inv.opt v hvis).1
        have h2 := inv.fin v hvis
        have := hall _ h1
        omega
      have hval : (st.getD v dflt).value = INF := inv_final_unvisited inv v hvn hvv
      obtain ⟨T, hT⟩ := hex
      refine ⟨?_, ?_⟩
      · rw [hval]
        rw [hall T hT] at hT
        exact hT
      · intro T' hT'
        rw [hval, hall T' hT']
  · intro hnex
    by_contra hne
    exact hnex ⟨_, inv.vreach v hvn hne⟩

/-- Witness for claim C1 on the specification's concrete scenario:
3 nodes, source 0, edge 0→1 `(start 5, period 0, duration 2)` and edge
1→2 `(start 10, period 3, duration 1)`; arrival times are 0, 7, 11. -/
theorem dijkstra_timetable_correct_witness :
    dijkstra_timetable ⟨[[⟨1, 2, 5, 0⟩], [⟨2, 1, 10, 3⟩], []]⟩ 0 =
      some [⟨0, true, none⟩, ⟨7, true, some 0⟩, ⟨11, true, some 1⟩] ∧
    1 < Graph.numNodes ⟨[[⟨1, 2, 5, 0⟩], [⟨2, 1, 10, 3⟩], []]⟩ ∧
    IsLeast {T | Reach ⟨[[⟨1, 2, 5, 0⟩], [⟨2, 1, 10, 3⟩], []]⟩ 0 1 T} 7 := by
  have hrun : dijkstra_timetable ⟨[[⟨1, 2, 5, 0⟩], [⟨2, 1, 10, 3⟩], []]⟩ 0 =
      some [⟨0, true, none⟩, ⟨7, true, some 0⟩, ⟨11, true, some 1⟩] := by
    simp [dijkstra_timetable, dijkstraLoop, relaxEdges, Graph.numNodes,
      Graph.edgesOf, graph_reset, queueInsert, findMin, get_travel_time, INF,
      dflt, getD_set_self, getD_set_ne, List.getD]
  refine ⟨hrun, by decide, ?_⟩
  have := (dijkstra_timetable_correct _ 0 _ hrun 1 (by decide)).1
    ⟨7, Reach.step (e := ⟨1, 2, 5, 0⟩) Reach.refl (by decide) (by decide)⟩
  simpa using this

/-- Claim C10: after a completing run, a node of the graph holds the
sentinel `INF` exactly when it was not marked visited: the query
interface's `value == INF` test and `get_path`'s `is_visited` test agree
on reachability. -/
theorem dijkstra_timetable_INF_iff_unvisited (g : Graph) (s : Nat)
    (st : List NodeState) (hrun : dijkstra_timetable g s = some st) :
    ∀ v, v < g.numNodes →
      ((st.getD v dflt).value = INF ↔ (st.getD v dflt).visited = false) := by
  obtain ⟨tr, _, inv⟩ := dijkstra_timetable_trace_run hrun
  intro v hvn
  constructor
  · intro hval
    by_contra hc
    have hvis : (st.getD v dflt).visited = true := by simpa using hc
    have := inv.fin v hvis
    omega
  · intro hvv
    exact inv_final_unvisited inv v hvn hvv

/-- Witness for claim C10 on the concrete scenario, plus an unreachable
node: node 3 has no incoming edge, stays at `INF` and unvisited, while
node 1 is visited with a value below `INF`. -/
theorem dijkstra_timetable_INF_iff_unvisited_witness :
    dijkstra_timetable ⟨[[⟨1, 2, 5, 0⟩], [], [], []]⟩ 0 =
      some [⟨0, true, none⟩, ⟨7, true, some 0⟩, ⟨INF, false, none⟩,
        ⟨INF, false, none⟩] ∧
    ((([⟨0, true, none⟩, ⟨7, true, some 0⟩, ⟨INF, false, none⟩,
        ⟨INF, false, none⟩] : List NodeState).getD 2 dflt).value = INF ↔
      (([⟨0, true, none⟩, ⟨7, true, some 0⟩, ⟨INF, false, none⟩,
        ⟨INF, false, none⟩] : List NodeState).getD 2 dflt).visited = false) := by
  have hrun : dijkstra_timetable ⟨[[⟨1, 2, 5, 0⟩], [], [], []]⟩ 0 =
      some [⟨0, true, none⟩, ⟨7, true, some 0⟩, ⟨INF, false, none⟩,
        ⟨INF, false, none⟩] := by
    simp [dijkstra_timetable, dijkstraLoop, relaxEdges, Graph.numNodes,
      Graph.edgesOf, graph_reset, queueInsert, findMin, get_travel_time, INF,
      dflt, getD_set_self, getD_set_ne, List.getD]
  exact ⟨hrun, dijkstra_timetable_INF_iff_unvisited _ 0 _ hrun 2 (by decide)⟩

/-- Claim C5: in every completing run of `dijkstra_timetable`, the nodes
are finalized (marked visited) in non-decreasing order of their value:
the recorded finalization trace is sorted by value. -/
theorem dijkstra_finalization_sorted (g : Graph) (s : Nat)
    (st : List NodeState) (hrun : dijkstra_timetable g s = some st) :
    ∃ tr, dijkstra_timetableTrace g s = some (st, tr) ∧
      tr.Pairwise (fun a b => a.2 ≤ b.2) := by
  obtain ⟨tr, htr, inv⟩ := dijkstra_timetable_trace_run hrun
  exact ⟨tr, htr, inv.trSorted⟩

/-- Witness for claim C5 on the concrete scenario: the finalization
trace is `[(0, 0), (1, 7), (2, 11)]`, sorted by value. -/
theorem dijkstra_finalization_sorted_witness :
    dijkstra_timetable ⟨[[⟨1, 2, 5, 0⟩], [⟨2, 1, 10, 3⟩], []]⟩ 0 =
      some [⟨0, true, none⟩, ⟨7, true, some 0⟩, ⟨11, true, some 1⟩] ∧
    ∃ tr, dijkstra_timetableTrace ⟨[[⟨1, 2, 5, 0⟩], [⟨2, 1, 10, 3⟩], []]⟩ 0 =
        some ([⟨0, true, none⟩, ⟨7, true, some 0⟩, ⟨11, true, some 1⟩], tr) ∧
      tr.Pairwise (fun a b => a.2 ≤ b.2) := by
  have hrun : dijkstra_timetable ⟨[[⟨1, 2, 5, 0⟩], [⟨2, 1, 10, 3⟩], []]⟩ 0 =
      some [⟨0, true, none⟩, ⟨7, true, some 0⟩, ⟨11, true, some 1⟩] := by
    simp [dijkstra_timetable, dijkstraLoop, relaxEdges, Graph.numNodes,
      Graph.edgesOf, graph_reset, queueInsert, findMin, get_travel_time, INF,
      dflt, getD_set_self, getD_set_ne, List.getD]
  exact ⟨hrun, dijkstra_finalization_sorted _ 0 _ hrun⟩

/-- Claim C6: once a node is marked visited, the remainder of the search
never modifies it again: from any loop state in which `v` is visited,
the completed run returns `v`'s record (value, flag, predecessor)
unchanged.  Relaxations skip visited heads before calling `set_value`,
and stale queue duplicates of visited nodes are discarded. -/
theorem dijkstraLoop_visited_frozen (g : Graph) : ∀ (ns : List NodeState)
    (q : List (Nat × Nat)) {st : List NodeState},
    dijkstraLoop g ns q = some st →
    ∀ v, (ns.getD v dflt).visited = true → st.getD v dflt = ns.getD v dflt := by
  intro ns q
  induction ns, q using dijkstraLoop.induct g with
  | case1 ns q hm =>
    intro st h v _
    unfold dijkstraLoop at h
    rw [hm] at h
    rw [← Option.some.inj h]
  | case2 ns q t u hm hu hv ih =>
    intro st h v hvv
    unfold dijkstraLoop at h
    rw [hm] at h
    simp only [hu, hv, dif_pos, if_pos] at h
    exact ih h v hvv
  | case3 ns q t u hm hu hv hr =>
    intro st h v hvv
    unfold dijkstraLoop at h
    rw [hm] at h
    simp only [hu, hv, dif_pos, if_neg] at h
    rw [hr] at h
    exact Option.noConfusion h
  | case4 ns q t u hm hu hv ns2 q2 hr ih =>
    intro st h v hvv
    unfold dijkstraLoop at h
    rw [hm] at h
    simp only [hu, hv, dif_pos, if_neg] at h
    rw [hr] at h
    have hvne : v ≠ u := by
      intro hc
      rw [hc] at hvv
      rw [hvv] at hv
      exact hv rfl
    have hmark : (ns.set u { ns.getD u dflt with visited := true }).getD v dflt
        = ns.getD v dflt := getD_set_ne _ _ (fun hc => hvne hc.symm)
    have hvis1u : ((ns.set u { ns.getD u dflt with visited := true }).getD u
        dflt).visited = true := by
      rw [getD_set_self _ _ _ hu]
    have post := relaxEdges_spec u (g.edgesOf u) _ _ hvis1u hr
    have hfr := post.frozen v (by rw [hmark]; exact hvv)
    have hvv2 : (ns2.getD v dflt).visited = true := by
      rw [hfr, hmark]
      exact hvv
    rw [ih h v hvv2, hfr, hmark]
  | case5 ns q t u hm hu =>
    intro st h v _
    unfold dijkstraLoop at h
    rw [hm] at h
    simp only [hu] at h
    exact Option.noConfusion h

/-- Witness for claim C6: a one-node graph whose node is already
visited with value 5; the loop discards the stale queue entry and
returns the record unchanged. -/
theorem dijkstraLoop_visited_frozen_witness :
    dijkstraLoop ⟨[[]]⟩ [⟨5, true, none⟩] [(5, 0)] = some [⟨5, true, none⟩] ∧
    (([⟨5, true, none⟩] : List NodeState).getD 0 dflt).visited = true ∧
    ([⟨5, true, none⟩] : List NodeState).getD 0 dflt =
      ([⟨5, true, none⟩] : List NodeState).getD 0 dflt := by
  have hrun : dijkstraLoop ⟨[[]]⟩ [⟨5, true, none⟩] [(5, 0)] =
      some [⟨5, true, none⟩] := by
    simp [dijkstraLoop, findMin, dflt, List.getD]
  exact ⟨hrun, rfl, dijkstraLoop_visited_frozen ⟨[[]]⟩ _ _ hrun 0 rfl⟩

/-- Model of the predecessor walk of `Graph::get_path` (lines 200-204):
follow `prev_node` links until the null pointer, collecting nodes in
reverse-traversal order.  The C++ `while` loop carries no fuel; after a
completed search, predecessor links strictly decrease the finalization
rank, so any fuel of at least the node count reproduces the loop
exactly (established by the theorems below). -/
def follow_prev (ns : List NodeState) : Option Nat → Nat → List Nat
  | none, _ => []
  | some _, 0 => []
  | some p, fuel + 1 => p :: follow_prev ns (ns.getD p dflt).prev_node fuel

/-- Model of `Graph::get_path` (lines 183-208): empty result for an
out-of-range index; otherwise the end node (pushed only if visited)
followed by the predecessor chain, reversed into start-to-end order.
The `start_index` parameter mirrors the member the C++ code fetches
(and never uses). -/
theorem follow_prev_none (ns : List NodeState) (fuel : Nat) :
    follow_prev ns none fuel = [] := by
  cases fuel <;> rfl

def get_path (ns : List NodeState) (start_index : Nat)
    (end_node_index : Nat) : List Nat :=
  if ns.length ≤ end_node_index then []
  else
    ((if (ns.getD end_node_index dflt).visited then [end_node_index] else []) ++
      follow_prev ns ((ns.getD end_node_index dflt).prev_node) ns.length).reverse

/-- After a completed search the predecessor walk from any finalized
node terminates at the start node: starting from the node at trace
position `j`, with any fuel above `j`, the walk lists that node followed
by nodes of strictly earlier trace positions, ends at `s`, and
consecutive entries are linked by `prev_node`. -/
theorem follow_prev_spec {g : Graph} {s : Nat} {st : List NodeState}
    {tr : List (Nat × Nat)} (inv : Inv g s st [] tr) :
    ∀ (j : Nat) (hj : j < tr.length) (fuel : Nat), j < fuel →
      ∃ l, follow_prev st (some (tr.get ⟨j, hj⟩).1) fuel =
          (tr.get ⟨j, hj⟩).1 :: l ∧
        ((tr.get ⟨j, hj⟩).1 :: l).getLast? = some s ∧
        List.Chain' (fun a b => (st.getD a dflt).prev_node = some b)
          ((tr.get ⟨j, hj⟩).1 :: l) ∧
        ∀ x ∈ l, ∃ (i : Nat) (hi : i < tr.length), i < j ∧
          x = (tr.get ⟨i, hi⟩).1 := by
  intro j
  induction j using Nat.strong_induction_on with
  | _ j ih =>
    intro hj fuel hfuel
    rcases fuel with _ | f
    · omega
    rcases hp : (st.getD (tr.get ⟨j, hj⟩).1 dflt).prev_node with _ | w
    · -- chain stops: the node must be the start node
      have hmem : tr.get ⟨j, hj⟩ ∈ tr := List.get_mem tr j hj
      have hvis : (st.getD (tr.get ⟨j, hj⟩).1 dflt).visited = true :=
        (inv.trVis _ (inv.trLt _ hmem)).mpr (List.mem_map.mpr ⟨_, hmem, rfl⟩)
      have hvs : (tr.get ⟨j, hj⟩).1 = s := by
        by_contra hc
        exact absurd hp (inv.pne _ hvis hc)
      refine ⟨[], ?_, ?_, List.chain'_singleton _, fun x hx => absurd hx
        (List.not_mem_nil _)⟩
      · show (tr.get ⟨j, hj⟩).1 ::
          follow_prev st ((st.getD (tr.get ⟨j, hj⟩).1 dflt).prev_node) f = _
        rw [hp, follow_prev_none]
      · rw [hvs]
        rfl
    · -- step to the predecessor, which was finalized strictly earlier
      obtain ⟨i, hi, hij, hieq⟩ := inv.trPrev j hj w hp
      obtain ⟨l, hl1, hl2, hl3, hl4⟩ := ih i hij hi f (by omega)
      rw [hieq] at hl1 hl2 hl3
      refine ⟨w :: l, ?_, ?_, ?_, ?_⟩
      · show (tr.get ⟨j, hj⟩).1 ::
          follow_prev st ((st.getD (tr.get ⟨j, hj⟩).1 dflt).prev_node) f = _
        rw [hp, hl1]
      · rw [List.getLast?_cons_cons]
        exact hl2
      · rw [List.chain'_cons]
        exact ⟨hp, hl3⟩
      · intro x hx
        rcases List.mem_cons.mp hx with rfl | hx'
        · exact ⟨i, hi, by omega, hieq.symm⟩
        · obtain ⟨i', hi', hii', hieq'⟩ := hl4 x hx'
          exact ⟨i', hi', by omega, hieq'⟩

/-- The finalization trace is no longer than the node list: its nodes
are distinct and all in range. -/
theorem trace_length_le {g : Graph} {s : Nat} {st : List NodeState}
    {tr : List (Nat × Nat)} (inv : Inv g s st [] tr) :
    tr.length ≤ st.length := by
  have hsub : tr.map Prod.fst ⊆ List.range g.numNodes := by
    intro x hx
    obtain ⟨p, hp, hpx⟩ := List.mem_map.mp hx
    exact List.mem_range.mpr (hpx ▸ inv.trLt p hp)
  have hle := (List.subperm_of_subset inv.trNodup hsub).length_le
  rw [List.length_map, List.length_range] at hle
  rw [inv.len]
  exact hle

/-- Claim C7: after a completed search with start node `s`,
`get_path` returns the empty sequence for an out-of-range target and
for a target that was never reached (not visited, no predecessor);
for every visited (reached) target it returns a non-empty path from the
source to the target obtained by following predecessor links backward
and reversing, consecutive nodes being predecessor-linked; and the
source itself yields the one-element path `[s]`. -/
theorem get_path_correct (g : Graph) (s : Nat) (st : List NodeState)
    (hrun : dijkstra_timetable g s = some st) (target : Nat) :
    (st.length ≤ target → get_path st s target = []) ∧
    (target < st.length → (st.getD target dflt).visited = false →
      (st.getD target dflt).prev_node = none → get_path st s target = []) ∧
    ((st.getD target dflt).visited = true →
      get_path st s target ≠ [] ∧
      (get_path st s target).head? = some s ∧
      (get_path st s target).getLast? = some target ∧
      List.Chain' (fun a b => (st.getD b dflt).prev_node = some a)
        (get_path st s target)) ∧
    (target = s → get_path st s target = [s]) := by
  obtain ⟨tr, _, inv⟩ := dijkstra_timetable_trace_run hrun
  have hsvis : (st.getD s dflt).visited = true :=
    (inv_final_vis_reach inv s 0 Reach.refl (by decide)).1
  refine ⟨?_, ?_, ?_, ?_⟩
  · intro hle
    unfold get_path
    rw [if_pos hle]
  · intro hlt hnv hpn
    unfold get_path
    rw [if_neg (by omega), hnv, hpn, follow_prev_none]
    rfl
  · intro hvis
    have htlt : target < st.length := visited_lt_length hvis
    have htr_mem : target ∈ tr.map Prod.fst :=
      (inv.trVis target (by rw [← inv.len]; exact htlt)).mp hvis
    obtain ⟨p, hp, hpt⟩ := List.mem_map.mp htr_mem
    obtain ⟨⟨j, hj⟩, hjeq⟩ := List.mem_iff_get.mp hp
    have hjt : (tr.get ⟨j, hj⟩).1 = target := by rw [hjeq, hpt]
    -- the walked list is the reverse of target :: (predecessor chain)
    have hmain : ∃ L, get_path st s target = L.reverse ∧
        L.head? = some target ∧ L.getLast? = some s ∧
        List.Chain' (fun a b => (st.getD a dflt).prev_node = some b) L := by
      rcases hp2 : (st.getD target dflt).prev_node with _ | w
      · -- target has no predecessor: target = s, path [s]
        have hts : target = s := by
          by_contra hc
          exact absurd hp2 (inv.pne _ hvis hc)
        refine ⟨[target], ?_, rfl, by rw [hts]; rfl, List.chain'_singleton _⟩
        unfold get_path
        rw [if_neg (by omega), hvis, hp2, follow_prev_none]
        rfl
      · -- walk the predecessor chain
        obtain ⟨i, hi, hij, hieq⟩ := inv.trPrev j hj w (by rw [hjt]; exact hp2)
        have hfuel : i < st.length := by
          have := trace_length_le inv
          omega
        obtain ⟨l, hl1, hl2, hl3, _⟩ := follow_prev_spec inv i hi st.length hfuel
        rw [hieq] at hl1 hl2 hl3
        refine ⟨target :: w :: l, ?_, rfl, ?_, ?_⟩
        · unfold get_path
          rw [if_neg (by omega), hvis, hp2, hl1]
          rfl
        · rw [List.getLast?_cons_cons]
          exact hl2
        · rw [List.chain'_cons]
          exact ⟨hp2, hl3⟩
    obtain ⟨L, hL, hLh, hLl, hLc⟩ := hmain
    have hLne : L ≠ [] := by
      intro hc
      rw [hc] at hLh
      exact Option.noConfusion hLh
    refine ⟨?_, ?_, ?_, ?_⟩
    · rw [hL]
      intro hc
      exact hLne (by simpa using hc)
    · rw [hL, List.head?_reverse]
      exact hLl
    · rw [hL, List.getLast?_reverse]
      exact hLh
    · rw [hL]
      rw [List.chain'_reverse]
      have : (flip fun a b => (st.getD b dflt).prev_node = some a) =
          fun a b => (st.getD a dflt).prev_node = some b := rfl
      rw [this]
      exact hLc
  · intro hts
    subst hts
    unfold get_path
    have htlt : target < st.length := visited_lt_length hsvis
    rw [if_neg (by omega), hsvis, inv.ps, follow_prev_none]
    rfl

/-- Witness for claim C7 on the concrete scenario: the path from the
source 0 to node 2 is `[0, 1, 2]`. -/
theorem get_path_correct_witness :
    dijkstra_timetable ⟨[[⟨1, 2, 5, 0⟩], [⟨2, 1, 10, 3⟩], []]⟩ 0 =
      some [⟨0, true, none⟩, ⟨7, true, some 0⟩, ⟨11, true, some 1⟩] ∧
    (([⟨0, true, none⟩, ⟨7, true, some 0⟩, ⟨11, true, some 1⟩] :
      List NodeState).getD 2 dflt).visited = true ∧
    get_path [⟨0, true, none⟩, ⟨7, true, some 0⟩, ⟨11, true, some 1⟩] 0 2 ≠ [] ∧
    (get_path [⟨0, true, none⟩, ⟨7, true, some 0⟩, ⟨11, true, some 1⟩] 0
      2).head? = some 0 ∧
    (get_path [⟨0, true, none⟩, ⟨7, true, some 0⟩, ⟨11, true, some 1⟩] 0
      2).getLast? = some 2 := by
  have hrun : dijkstra_timetable ⟨[[⟨1, 2, 5, 0⟩], [⟨2, 1, 10, 3⟩], []]⟩ 0 =
      some [⟨0, true, none⟩, ⟨7, true, some 0⟩, ⟨11, true, some 1⟩] := by
    simp [dijkstra_timetable, dijkstraLoop, relaxEdges, Graph.numNodes,
      Graph.edgesOf, graph_reset, queueInsert, findMin, get_travel_time, INF,
      dflt, getD_set_self, getD_set_ne, List.getD]
  have hres := (get_path_correct _ 0 _ hrun 2).2.2.1 (by rfl)
  exact ⟨hrun, rfl, hres.1, hres.2.1, hres.2.2.1⟩

/-- Model of the query loop of `main` (shortest_path_times_table.cpp,
lines 338-348): for each query index, read the node's value and emit
either the literal marker `Impossible` (value equals the sentinel) or
the value itself, one line per query, in query order. -/
def print_queries (st : List NodeState) : List Nat → List String
  | [] => []
  | query :: rest =>
    (if (st.getD query dflt).value = INF then "Impossible"
      else toString ((st.getD query dflt).value)) :: print_queries st rest

/-- Claim C8: for queries naming nodes of the graph, the program emits
exactly one output line per query, in query order; the line is the
literal `Impossible` when the queried node's value is the sentinel
`INF`, and the computed value otherwise.  The output function is total:
an unreachable target is a data outcome, not a thrown failure. -/
theorem print_queries_spec (st : List NodeState) (queries : List Nat)
    (hvalid : ∀ x ∈ queries, x < st.length) :
    (print_queries st queries).length = queries.length ∧
    ∀ i : Nat, (print_queries st queries)[i]? =
      (queries[i]?).map (fun query =>
        if (st.getD query dflt).value = INF then "Impossible"
        else toString ((st.getD query dflt).value)) := by
  induction queries with
  | nil => exact ⟨rfl, fun i => by cases i <;> rfl⟩
  | cons x rest ih =>
    obtain ⟨ih1, ih2⟩ := ih (fun y hy => hvalid y (List.mem_cons_of_mem _ hy))
    refine ⟨?_, ?_⟩
    · show (print_queries st (x :: rest)).length = rest.length + 1
      unfold print_queries
      rw [List.length_cons, ih1]
    · intro i
      cases i with
      | zero => simp [print_queries]
      | succ i' =>
        show (print_queries st (x :: rest))[i' + 1]? = _
        unfold print_queries
        rw [List.getElem?_cons_succ, List.getElem?_cons_succ]
        exact ih2 i'

/-- Witness for claim C8: on the final state of the concrete scenario
run, querying nodes 2 (value 11) and 3 (unreachable, `INF`) prints the
lines `11` and `Impossible`. -/
theorem print_queries_spec_witness :
    (∀ x ∈ [2, 3], x < ([⟨0, true, none⟩, ⟨7, true, some 0⟩,
      ⟨11, true, some 1⟩, ⟨INF, false, none⟩] : List NodeState).length) ∧
    print_queries [⟨0, true, none⟩, ⟨7, true, some 0⟩, ⟨11, true, some 1⟩,
      ⟨INF, false, none⟩] [2, 3] = ["11", "Impossible"] ∧
    (print_queries [⟨0, true, none⟩, ⟨7, true, some 0⟩, ⟨11, true, some 1⟩,
      ⟨INF, false, none⟩] [2, 3]).length = ([2, 3] : List Nat).length := by
  refine ⟨by decide, by decide, ?_⟩
  exact (print_queries_spec _ [2, 3] (by decide)).1

/-- Edge of the constant-weight variant (interval_covers.cpp, second
translation unit): head node and fixed scalar cost. -/
structure CEdge where
  connection_node : Nat
  edge_cost : Nat
deriving DecidableEq, Repr

/-- Encoding of a plain weighted edge as a timetable edge:
`departure_start = 0, period = 1, duration = weight` (claim C9). -/
def convertEdge (e : CEdge) : Edge :=
  ⟨e.connection_node, e.edge_cost, 0, 1⟩

/-- On a converted edge the schedule function is a pure addition with an
overflow guard: the wait is always zero. -/
theorem get_travel_time_convert (e : CEdge) (t : Nat) :
    get_travel_time (convertEdge e) t =
      (if t + e.edge_cost ≤ INF then some (t + e.edge_cost) else none) := by
  unfold get_travel_time convertEdge
  simp only [Nat.mod_one, Nat.sub_zero, Nat.add_zero, one_ne_zero, and_false,
    if_false, ite_false, ite_true, if_true]
  split_ifs with h1 h2 h3
  · exact absurd h1 (Nat.not_lt_zero t)
  · exact absurd h1 (Nat.not_lt_zero t)
  · show (if t + e.edge_cost ≤ INF ∧ t + e.edge_cost + 0 ≤ INF then
        some (t + e.edge_cost + 0) else none) = some (t + e.edge_cost)
    rw [if_pos ⟨h3, by omega⟩, Nat.add_zero]
  · show (if t + e.edge_cost ≤ INF ∧ t + e.edge_cost + 0 ≤ INF then
        some (t + e.edge_cost + 0) else none) = none
    rw [if_neg (by omega)]

/-- Graph of the constant-weight variant. -/
structure CGraph where
  edges : List (List CEdge)

def CGraph.numNodes (cg : CGraph) : Nat := cg.edges.length

def CGraph.edgesOf (cg : CGraph) (u : Nat) : List CEdge := cg.edges.getD u []

/-- Edge-by-edge conversion of a weight graph into a timetable graph. -/
def convertGraph (cg : CGraph) : Graph :=
  ⟨cg.edges.map (List.map convertEdge)⟩

theorem convertGraph_numNodes (cg : CGraph) :
    (convertGraph cg).numNodes = cg.numNodes := by
  unfold convertGraph Graph.numNodes CGraph.numNodes
  exact List.length_map ..

theorem convertGraph_edgesOf (cg : CGraph) (u : Nat) :
    (convertGraph cg).edgesOf u = (cg.edgesOf u).map convertEdge := by
  unfold convertGraph Graph.edgesOf CGraph.edgesOf
  simp only
  rw [List.getD_eq_getElem?_getD, List.getD_eq_getElem?_getD,
    List.getElem?_map]
  cases cg.edges[u]? <;> rfl

/-- Model of the relaxation loop of the constant-weight `dijkstra`
(interval_covers.cpp, lines 344-360): the candidate cost is
`value + edge_cost`; signed overflow of that addition is undefined
behaviour (`none`). -/
def relaxEdgesConst (curr : Nat) : List CEdge → List NodeState →
    List (Nat × Nat) → Option (List NodeState × List (Nat × Nat))
  | [], ns, q => some (ns, q)
  | e :: rest, ns, q =>
    if e.connection_node < ns.length then
      if (ns.getD e.connection_node dflt).visited then
        relaxEdgesConst curr rest ns q
      else
        match (if (ns.getD curr dflt).value + e.edge_cost ≤ INF then
            some ((ns.getD curr dflt).value + e.edge_cost) else none) with
        | none => none
        | some upd_cost =>
          if upd_cost < (ns.getD e.connection_node dflt).value then
            relaxEdgesConst curr rest
              (ns.set e.connection_node
                { ns.getD e.connection_node dflt with
                    value := upd_cost, prev_node := some curr })
              (queueInsert (upd_cost, e.connection_node) q)
          else
            relaxEdgesConst curr rest ns q
    else none

/-- The constant-weight relaxation is exactly the timetable relaxation
on the converted edge list. -/
theorem relaxEdgesConst_eq (curr : Nat) : ∀ (es : List CEdge)
    (ns : List NodeState) (q : List (Nat × Nat)),
    relaxEdgesConst curr es ns q =
      relaxEdges curr (es.map convertEdge) ns q := by
  intro es
  induction es with
  | nil => intro ns q; rfl
  | cons e rest ih =>
    intro ns q
    show relaxEdgesConst curr (e :: rest) ns q =
      relaxEdges curr (convertEdge e :: rest.map convertEdge) ns q
    unfold relaxEdgesConst relaxEdges
    rw [get_travel_time_convert]
    show _ = if (convertEdge e).connection_node < ns.length then _ else _
    simp only [convertEdge]
    by_cases h1 : e.connection_node < ns.length
    · rw [if_pos h1, if_pos h1]
      by_cases h2 : (ns.getD e.connection_node dflt).visited
      · rw [if_pos h2, if_pos h2]
        exact ih ns q
      · rw [if_neg h2, if_neg h2]
        by_cases h3 : (ns.getD curr dflt).value + e.edge_cost ≤ INF
        · rw [if_pos h3]
          dsimp only
          by_cases h4 : (ns.getD curr dflt).value + e.edge_cost <
              (ns.getD e.connection_node dflt).value
          · rw [if_pos h4, if_pos h4]
            exact ih _ _
          · rw [if_neg h4, if_neg h4]
            exact ih ns q
        · rw [if_neg h3]
    · rw [if_neg h1, if_neg h1]

/-- Model of the main loop of the constant-weight `dijkstra`
(interval_covers.cpp, lines 330-361): one-to-one with the timetable
loop, with the constant-cost relaxation. -/
def dijkstraConstLoop (cg : CGraph) (ns : List NodeState)
    (q : List (Nat × Nat)) : Option (List NodeState) :=
  match hm : findMin q with
  | none => some ns
  | some (t, u) =>
    if hu : u < ns.length then
      if hv : (ns.getD u dflt).visited then
        dijkstraConstLoop cg ns (q.erase (t, u))
      else
        match hr : relaxEdgesConst u (cg.edgesOf u)
            (ns.set u { ns.getD u dflt with visited := true })
            (q.erase (t, u)) with
        | none => none
        | some (ns2, q2) => dijkstraConstLoop cg ns2 q2
    else none
termination_by (unvisCount ns, q.length)
decreasing_by
  · apply Prod.Lex.right
    have hmem : (t, u) ∈ q := findMin_mem hm
    have := List.length_erase_of_mem hmem
    have hpos : 0 < q.length := List.length_pos.mpr (by
      intro hq
      subst hq
      exact absurd hmem (List.not_mem_nil _))
    omega
  · apply Prod.Lex.left
    have hmark := unvisCount_set_visited hu (by simpa using hv)
    rw [relaxEdgesConst_eq] at hr
    have hrel := relaxEdges_vis_len u _ _ _ hr
    have : unvisCount ns2 =
        unvisCount (ns.set u { ns.getD u dflt with visited := true }) :=
      unvisCount_congr hrel.1 hrel.2
    omega

/-- The constant-weight loop coincides with the timetable loop on the
converted graph, from any state. -/
theorem dijkstraConstLoop_eq (cg : CGraph) : ∀ (ns : List NodeState)
    (q : List (Nat × Nat)),
    dijkstraConstLoop cg ns q = dijkstraLoop (convertGraph cg) ns q := by
  intro ns q
  induction ns, q using dijkstraConstLoop.induct cg with
  | case1 ns q hm =>
    unfold dijkstraConstLoop dijkstraLoop
    rw [hm]
  | case2 ns q t u hm hu hv ih =>
    unfold dijkstraConstLoop dijkstraLoop
    rw [hm]
    simp only [hu, hv, dif_pos, if_pos]
    exact ih
  | case3 ns q t u hm hu hv hr =>
    unfold dijkstraConstLoop dijkstraLoop
    rw [hm]
    dsimp only
    rw [convertGraph_edgesOf, ← relaxEdgesConst_eq]
    rw [dif_pos hu, dif_pos hu, dif_neg hv, dif_neg hv, hr]
  | case4 ns q t u hm hu hv ns2 q2 hr ih =>
    unfold dijkstraConstLoop dijkstraLoop
    rw [hm]
    dsimp only
    rw [convertGraph_edgesOf, ← relaxEdgesConst_eq]
    rw [dif_pos hu, dif_pos hu, dif_neg hv, dif_neg hv, hr]
    exact ih
  | case5 ns q t u hm hu =>
    unfold dijkstraConstLoop dijkstraLoop
    rw [hm]
    simp only [hu]
    rw [dif_neg not_false, dif_neg not_false]

/-- Model of the constant-weight `dijkstra` (interval_covers.cpp, lines
319-362): same reset, seeding and loop as `dijkstra_timetable`, with
scalar edge costs. -/
def dijkstra (cg : CGraph) (s : Nat) : Option (List NodeState) :=
  if s < cg.numNodes then
    dijkstraConstLoop cg
      ((graph_reset cg.numNodes).set s
        { (graph_reset cg.numNodes).getD s dflt with value := 0 })
      (queueInsert (0, s) [])
  else none

/-- Counterexample to claim C9 as stated: on the edge
`(departure_start = 0, period = 1, duration = 1)` at
`current_time = INT_MAX`, the claimed result `current_time + 1` would
overflow the `int`; the C++ addition is undefined behaviour, and the
model returns `none`, not `some (current_time + 1)`. -/
theorem dijkstra_constant_weight_counterexample :
    get_travel_time ⟨0, 1, 0, 1⟩ INF = none ∧
    get_travel_time ⟨0, 1, 0, 1⟩ INF ≠ some (INF + 1) := by
  constructor
  · decide
  · decide

/-- Claim C9 (amended): whenever `current_time + w` does not overflow,
the converted edge `(departure_start = 0, period = 1, duration = w)`
yields `current_time + w` with zero wait; and on every weight graph the
constant-weight `dijkstra` returns exactly the same result (node
values, flags, predecessors, and crash behaviour) as
`dijkstra_timetable` on the edge-converted graph. -/
theorem dijkstra_constant_weight_equiv :
    (∀ (nb w current_time : Nat), current_time + w ≤ INF →
      get_travel_time ⟨nb, w, 0, 1⟩ current_time = some (current_time + w)) ∧
    ∀ (cg : CGraph) (s : Nat),
      dijkstra cg s = dijkstra_timetable (convertGraph cg) s := by
  constructor
  · intro nb w current_time h
    have := get_travel_time_convert ⟨nb, w⟩ current_time
    rw [if_pos h] at this
    exact this
  · intro cg s
    unfold dijkstra dijkstra_timetable
    rw [convertGraph_numNodes]
    split
    · exact dijkstraConstLoop_eq cg _ _
    · rfl

/-- Witness for the amended claim C9: a zero-wait travel evaluation at
`current_time = 3, w = 4`, and the program-level equivalence on a
concrete two-node weight graph. -/
theorem dijkstra_constant_weight_equiv_witness :
    (3 + 4 ≤ INF ∧ get_travel_time ⟨1, 4, 0, 1⟩ 3 = some 7) ∧
    dijkstra ⟨[[⟨1, 5⟩], []]⟩ 0 =
      dijkstra_timetable (convertGraph ⟨[[⟨1, 5⟩], []]⟩) 0 :=
  ⟨⟨by decide, dijkstra_constant_weight_equiv.1 1 4 3 (by decide)⟩,
    dijkstra_constant_weight_equiv.2 ⟨[[⟨1, 5⟩], []]⟩ 0⟩

end TimesTable
